import Mathlib

/-!
Verification of the taotie ingestion/dispatch core.

This file shallowly embeds the data model and the operations of the
message-queue / gatherer / source / consumer pipeline of the repository
(src/taotie) and proves the frozen claims about it.

Strings are modelled as lists of unicode characters (the transport is
raw UTF-8 capable, so a Python str is exactly a sequence of code points).
-/

set_option maxRecDepth 10000

abbrev Str := List Char

/-! ## JSON values

The canonical serialization format of the pipeline.  A record travels as a
string produced by json.dumps and is re-read by json.loads.  Numbers: a
Python int is carried exactly (constructor num); a number written with a
fraction or an exponent becomes a Python float, whose IEEE semantics the
embedding does not model -- such a number is kept as its source lexeme
(constructor fnum).  json.loads additionally accepts the extended
constants NaN, Infinity and -Infinity (allow_nan defaults to True). -/

inductive Json where
  | null : Json
  | bool (b : Bool) : Json
  | num (n : Int) : Json
  | fnum (lex : Str) : Json
  | nan : Json
  | inf (neg : Bool) : Json
  | str (s : Str) : Json
  | arr (elems : List Json) : Json
  | obj (members : List (Str × Json)) : Json

/-! ## Character helpers -/

/-- The whitespace characters skipped by the json scanner (the WHITESPACE
regex of json/decoder.py matches space, tab, newline and carriage return). -/
def isWsChar (c : Char) : Bool :=
  c = ' ' || c = '\t' || c = '\n' || c = '\r'

def isDigitChar (c : Char) : Bool :=
  48 ≤ c.toNat && c.toNat ≤ 57

/-- Hexadecimal digit value, upper or lower case (used by the \uXXXX
escape of py_scanstring). -/
def hexVal (c : Char) : Option Nat :=
  if 48 ≤ c.toNat && c.toNat ≤ 57 then some (c.toNat - 48)
  else if 97 ≤ c.toNat && c.toNat ≤ 102 then some (c.toNat - 87)
  else if 65 ≤ c.toNat && c.toNat ≤ 70 then some (c.toNat - 55)
  else none

def hex4 (h1 h2 h3 h4 : Char) : Option Nat := do
  let v1 ← hexVal h1
  let v2 ← hexVal h2
  let v3 ← hexVal h3
  let v4 ← hexVal h4
  pure (((v1 * 16 + v2) * 16 + v3) * 16 + v4)

/-- Drop leading json whitespace. -/
def skipWs : Str → Str
  | [] => []
  | c :: t => if isWsChar c then skipWs t else c :: t

/-! ## String scanning (py_scanstring, strict mode)

Positioned just after the opening quote; returns the decoded content and
the remaining input just after the closing quote.  Strict mode rejects raw
control characters inside a string.  A \uXXXX escape followed by a low
surrogate escape is combined into one code point; a lone surrogate is kept
by CPython as an unpaired code unit, which a Lean Char cannot carry, so
the model maps it through Char.ofNat (yielding NUL); the serializer never
emits surrogate escapes, so this corner is outside every proof below. -/

def escTable (e : Char) : Option Char :=
  if e = '"' then some '"'
  else if e = '\\' then some '\\'
  else if e = '/' then some '/'
  else if e = 'b' then some (Char.ofNat 8)
  else if e = 'f' then some (Char.ofNat 12)
  else if e = 'n' then some '\n'
  else if e = 'r' then some '\r'
  else if e = 't' then some '\t'
  else none

def combineSurrogates (n m : Nat) : Nat :=
  0x10000 + (n - 0xD800) * 0x400 + (m - 0xDC00)

mutual

/-- Fuel-indexed body of py_scanstring; every recursive call decreases the
fuel and the wrapper below supplies fuel that is always sufficient. -/
def scanStringF : Nat → Str → Option (Str × Str)
  | 0, _ => none
  | _ + 1, [] => none
  | _ + 1, '"' :: rest => some ([], rest)
  | fuel + 1, '\\' :: 'u' :: h1 :: h2 :: h3 :: h4 :: t =>
    match hex4 h1 h2 h3 h4 with
    | none => none
    | some n =>
      if 0xD800 ≤ n ∧ n ≤ 0xDBFF then scanSurrogateF fuel n t
      else (scanStringF fuel t).map fun r => (Char.ofNat n :: r.1, r.2)
  | fuel + 1, '\\' :: e :: t =>
    match escTable e with
    | some c => (scanStringF fuel t).map fun r => (c :: r.1, r.2)
    | none => none
  | fuel + 1, c :: t =>
    if c.toNat < 0x20 then none
    else (scanStringF fuel t).map fun r => (c :: r.1, r.2)

/-- After a high-surrogate escape, py_scanstring peeks for an immediately
following low-surrogate escape to combine; a following \u escape whose
hex is invalid raises; anything else leaves the high surrogate unpaired
and scanning resumes right after the first escape. -/
def scanSurrogateF : Nat → Nat → Str → Option (Str × Str)
  | 0, _, _ => none
  | fuel + 1, n, '\\' :: 'u' :: g1 :: g2 :: g3 :: g4 :: t2 =>
    match hex4 g1 g2 g3 g4 with
    | none => none
    | some m =>
      if 0xDC00 ≤ m ∧ m ≤ 0xDFFF then
        (scanStringF fuel t2).map fun r => (Char.ofNat (combineSurrogates n m) :: r.1, r.2)
      else
        (scanStringF fuel ('\\' :: 'u' :: g1 :: g2 :: g3 :: g4 :: t2)).map fun r =>
          (Char.ofNat n :: r.1, r.2)
  | fuel + 1, n, t => (scanStringF fuel t).map fun r => (Char.ofNat n :: r.1, r.2)

end

/-- py_scanstring.  The fuel bound: a consuming step spends one unit for
at least one character, and each \uXXXX escape may spend one extra unit on
the surrogate peek, so twice the length plus two always suffices. -/
def scanString (s : Str) : Option (Str × Str) :=
  scanStringF (2 * s.length + 2) s

/-! ## Number scanning

The NUMBER_RE regex of json/scanner.py:
(-?(?:0|[1-9]\d*))(\.\d+)?([eE][-+]?\d+)?
An integer match (no fraction, no exponent) becomes a Python int; any
other match becomes a float, kept here as its lexeme. -/

def takeDigits : Str → Str × Str
  | [] => ([], [])
  | c :: t =>
    if isDigitChar c then
      let r := takeDigits t
      (c :: r.1, r.2)
    else ([], c :: t)

def digitsToNat (ds : Str) : Nat :=
  ds.foldl (fun a c => a * 10 + (c.toNat - 48)) 0

/-- Scan the optional fraction group; a dot not followed by a digit is not
consumed (the regex group simply fails to match). -/
def scanFrac : Str → Str × Str
  | '.' :: t =>
    match takeDigits t with
    | ([], _) => ([], '.' :: t)
    | (ds, r) => ('.' :: ds, r)
  | s => ([], s)

/-- Scan the optional exponent group; an e/E not followed by a
(possibly signed) digit run is not consumed. -/
def scanExp : Str → Str × Str
  | e :: '+' :: t =>
    if e = 'e' ∨ e = 'E' then
      match takeDigits t with
      | ([], _) => ([], e :: '+' :: t)
      | (ds, r) => (e :: '+' :: ds, r)
    else ([], e :: '+' :: t)
  | e :: '-' :: t =>
    if e = 'e' ∨ e = 'E' then
      match takeDigits t with
      | ([], _) => ([], e :: '-' :: t)
      | (ds, r) => (e :: '-' :: ds, r)
    else ([], e :: '-' :: t)
  | e :: t =>
    if e = 'e' ∨ e = 'E' then
      match takeDigits t with
      | ([], _) => ([], e :: t)
      | (ds, r) => (e :: ds, r)
    else ([], e :: t)
  | [] => ([], [])

def finishNumber (neg : Bool) (ip : Str) (s : Str) : Json × Str :=
  let fr := scanFrac s
  let ex := scanExp fr.2
  if fr.1 = [] ∧ ex.1 = [] then
    (Json.num (if neg then -(digitsToNat ip : Int) else (digitsToNat ip : Int)), s)
  else
    (Json.fnum ((if neg then ['-'] else []) ++ ip ++ fr.1 ++ ex.1), ex.2)

/-- The integer part after the optional minus sign: a bare 0, or a nonzero
digit followed by a maximal digit run. -/
def scanNumBody (neg : Bool) : Str → Option (Json × Str)
  | [] => none
  | c :: t =>
    if c = '0' then some (finishNumber neg ['0'] t)
    else if isDigitChar c then
      let r := takeDigits t
      some (finishNumber neg (c :: r.1) r.2)
    else none

def scanNumber : Str → Option (Json × Str)
  | '-' :: t => scanNumBody true t
  | s => scanNumBody false s

/-! ## The value scanner (py_make_scanner / JSONObject / JSONArray)

Fuel-indexed: every recursive call decreases the fuel; json.loads runs it
with fuel exceeding the input length, which is always sufficient. -/

mutual

def scanOnce : Nat → Str → Option (Json × Str)
  | 0, _ => none
  | _ + 1, [] => none
  | fuel + 1, c :: s =>
    if c = '"' then
      (scanString s).map fun r => (Json.str r.1, r.2)
    else if c = '{' then
      match skipWs s with
      | [] => none
      | c2 :: t2 =>
        if c2 = '}' then some (Json.obj [], t2)
        else if c2 = '"' then (scanMembers fuel t2).map fun r => (Json.obj r.1, r.2)
        else none
    else if c = '[' then
      match skipWs s with
      | [] => (scanElems fuel []).map fun r => (Json.arr r.1, r.2)
      | c2 :: t2 =>
        if c2 = ']' then some (Json.arr [], t2)
        else (scanElems fuel (c2 :: t2)).map fun r => (Json.arr r.1, r.2)
    else
      match c :: s with
      | 'n' :: 'u' :: 'l' :: 'l' :: t => some (Json.null, t)
      | 't' :: 'r' :: 'u' :: 'e' :: t => some (Json.bool true, t)
      | 'f' :: 'a' :: 'l' :: 's' :: 'e' :: t => some (Json.bool false, t)
      | 'N' :: 'a' :: 'N' :: t => some (Json.nan, t)
      | 'I' :: 'n' :: 'f' :: 'i' :: 'n' :: 'i' :: 't' :: 'y' :: t => some (Json.inf false, t)
      | '-' :: 'I' :: 'n' :: 'f' :: 'i' :: 'n' :: 'i' :: 't' :: 'y' :: t => some (Json.inf true, t)
      | t => scanNumber t

/-- Object members, positioned just after the opening quote of a key. -/
def scanMembers : Nat → Str → Option (List (Str × Json) × Str)
  | 0, _ => none
  | fuel + 1, s =>
    match scanString s with
    | none => none
    | some (key, s1) =>
      match skipWs s1 with
      | ':' :: t =>
        match scanOnce fuel (skipWs t) with
        | none => none
        | some (v, s3) =>
          match skipWs s3 with
          | ',' :: u =>
            match skipWs u with
            | '"' :: u2 => (scanMembers fuel u2).map fun r => ((key, v) :: r.1, r.2)
            | _ => none
          | '}' :: u => some ([(key, v)], u)
          | _ => none
      | _ => none

/-- Array elements, positioned at the start of a value. -/
def scanElems : Nat → Str → Option (List Json × Str)
  | 0, _ => none
  | fuel + 1, s =>
    match scanOnce fuel s with
    | none => none
    | some (v, s1) =>
      match skipWs s1 with
      | ']' :: t => some ([v], t)
      | ',' :: t => (scanElems fuel (skipWs t)).map fun r => (v :: r.1, r.2)
      | _ => none

end

/-- json.loads: skip leading whitespace, scan one value, require that only
whitespace remains.  Returns none exactly when json.loads raises
JSONDecodeError. -/
def loads (s : Str) : Option Json :=
  match scanOnce (s.length + 1) (skipWs s) with
  | none => none
  | some (v, r) => if skipWs r = [] then some v else none

/-! ## Structural equality of values (Python ==) -/

mutual

def Json.beq : Json → Json → Bool
  | .null, .null => true
  | .bool a, .bool b => a == b
  | .num a, .num b => a == b
  | .fnum a, .fnum b => a == b
  | .nan, .nan => true
  | .inf a, .inf b => a == b
  | .str a, .str b => a == b
  | .arr a, .arr b => Json.beqList a b
  | .obj a, .obj b => Json.beqMembers a b
  | _, _ => false
termination_by structural a _ => a

def Json.beqList : List Json → List Json → Bool
  | [], [] => true
  | a :: as, b :: bs => Json.beq a b && Json.beqList as bs
  | _, _ => false
termination_by structural a _ => a

def Json.beqMembers : List (Str × Json) → List (Str × Json) → Bool
  | [], [] => true
  | (k, v) :: as, (l, w) :: bs => k == l && Json.beq v w && Json.beqMembers as bs
  | _, _ => false
termination_by structural a _ => a

end

instance : BEq Json := ⟨Json.beq⟩

/-! ## Serialization (json.dumps with ensure_ascii=False)

Information.encode calls json.dumps(self.data, ensure_ascii=False): default
separators are a comma-space between items and a colon-space between a key
and a value; the only characters escaped in a string are the double quote,
the backslash and the control characters below 0x20 (short escapes where
the ESCAPE_DCT has one, \u00XX with lower-case hex otherwise); every other
character -- in particular all non-ASCII text -- is written literally. -/

def hexDigit (d : Nat) : Char :=
  Char.ofNat (if d < 10 then 48 + d else 87 + d)

def escChar (c : Char) : Str :=
  if c = '"' then ['\\', '"']
  else if c = '\\' then ['\\', '\\']
  else if c = '\n' then ['\\', 'n']
  else if c = '\r' then ['\\', 'r']
  else if c = '\t' then ['\\', 't']
  else if c.toNat = 8 then ['\\', 'b']
  else if c.toNat = 12 then ['\\', 'f']
  else if c.toNat < 0x20 then
    ['\\', 'u', '0', '0', hexDigit (c.toNat / 16), hexDigit (c.toNat % 16)]
  else [c]

def escString (s : Str) : Str := (s.map escChar).flatten

def dumpStr (s : Str) : Str := '"' :: escString s ++ ['"']

def digitChar (d : Nat) : Char := Char.ofNat (48 + d)

def natToCharsAux : Nat → Nat → Str → Str
  | 0, _, acc => acc
  | _ + 1, 0, acc => acc
  | fuel + 1, n + 1, acc => natToCharsAux fuel ((n + 1) / 10) (digitChar ((n + 1) % 10) :: acc)

/-- Decimal rendering of a natural number (repr of a non-negative int).
The fuel n dominates the digit count, so it is always sufficient. -/
def natToChars (n : Nat) : Str :=
  if n = 0 then ['0'] else natToCharsAux n n []

/-- Decimal rendering of a Python int. -/
def intToChars (i : Int) : Str :=
  if i < 0 then '-' :: natToChars i.natAbs else natToChars i.natAbs

mutual

def dumps : Json → Str
  | .null => ['n', 'u', 'l', 'l']
  | .bool b => if b then ['t', 'r', 'u', 'e'] else ['f', 'a', 'l', 's', 'e']
  | .num i => intToChars i
  | .fnum lex => lex
  | .nan => ['N', 'a', 'N']
  | .inf false => ['I', 'n', 'f', 'i', 'n', 'i', 't', 'y']
  | .inf true => ['-', 'I', 'n', 'f', 'i', 'n', 'i', 't', 'y']
  | .str s => dumpStr s
  | .arr xs => '[' :: dumpsElems xs ++ [']']
  | .obj kvs => '{' :: dumpsMembers kvs ++ ['}']
termination_by structural v => v

def dumpsElems : List Json → Str
  | [] => []
  | [x] => dumps x
  | x :: y :: t => dumps x ++ ',' :: ' ' :: dumpsElems (y :: t)
termination_by structural v => v

def dumpsMembers : List (Str × Json) → Str
  | [] => []
  | [(k, v)] => dumpStr k ++ ':' :: ' ' :: dumps v
  | (k, v) :: m :: t => dumpStr k ++ ':' :: ' ' :: dumps v ++ ',' :: ' ' :: dumpsMembers (m :: t)
termination_by structural v => v

end

/-! ## The Information record (src/taotie/entity.py)

Construction assembles the data dict in insertion order: the five named
fields first, then the keyword arguments.  Python forbids a keyword
argument reusing a named parameter, and a dict cannot carry a duplicate
key, so the assembled pair list is exactly this concatenation. -/

structure Information where
  type : Str
  id : Str
  datetime_str : Str
  uri : Str
  content : Json
  kwargs : List (Str × Json)

/-- The self.data dict of Information.__init__, in insertion order. -/
def Information.data (r : Information) : List (Str × Json) :=
  (['t', 'y', 'p', 'e'], Json.str r.type)
    :: (['i', 'd'], Json.str r.id)
    :: (['d', 'a', 't', 'e', 't', 'i', 'm', 'e'], Json.str r.datetime_str)
    :: (['u', 'r', 'i'], Json.str r.uri)
    :: (['c', 'o', 'n', 't', 'e', 'n', 't'], r.content)
    :: r.kwargs

/-- Information.encode: json.dumps(self.data, ensure_ascii=False). -/
def Information.encode (r : Information) : Str :=
  dumps (Json.obj r.data)

/-- Information.get_id. -/
def Information.get_id (r : Information) : Str := r.id

/-! ## Message queues (src/taotie/message_queue.py)

The in-process backend wraps an asyncio.Queue; its state is the FIFO list
of enqueued strings, head first.  MessageQueue.put validates with
json.loads before delegating to the backend _put: on a parse error it
returns False without enqueuing, otherwise it enqueues and returns True. -/

structure SimpleMessageQueue where
  queue : List Str

def SimpleMessageQueue.qsize (q : SimpleMessageQueue) : Nat := q.queue.length

/-- MessageQueue.put specialised to the in-process backend: the try/except
around json.loads, then self._put (asyncio.Queue.put appends at the
tail). -/
def SimpleMessageQueue.put (q : SimpleMessageQueue) (message_json : Str) :
    SimpleMessageQueue × Bool :=
  match loads message_json with
  | none => (q, false)
  | some _ => (⟨q.queue ++ [message_json]⟩, true)

/-- The fetch loop of SimpleMessageQueue.get: while the queue is non-empty
and fewer than batch_size messages were taken, pop the head.  Returns the
collected batch and the remaining queue. -/
def simpleGetLoop : List Str → Nat → List Str × List Str
  | q, 0 => ([], q)
  | [], _ + 1 => ([], [])
  | m :: qs, b + 1 =>
    let r := simpleGetLoop qs b
    (m :: r.1, r.2)

def SimpleMessageQueue.get (q : SimpleMessageQueue) (batch_size : Nat) :
    List Str × SimpleMessageQueue :=
  let r := simpleGetLoop q.queue batch_size
  (r.1, ⟨r.2⟩)

def SimpleMessageQueue.empty (q : SimpleMessageQueue) : Bool := q.qsize = 0

/-- RedisMessageQueue.get polls pubsub.get_message until batch_size
messages have been collected, sleeping briefly on an empty poll.  The
environment is the finite observed sequence of poll results (None for an
empty poll); the model returns what the loop has collected by the time the
observed prefix is exhausted -- the real loop would keep polling
indefinitely until the count is reached. -/
def redisGet : List (Option Str) → Nat → List Str
  | _, 0 => []
  | [], _ + 1 => []
  | none :: ps, b + 1 => redisGet ps (b + 1)
  | some m :: ps, b + 1 => m :: redisGet ps b

/-- RedisMessageQueue.empty: pub/sub has no peek, the method always
answers False. -/
def redisEmpty : Bool := false

/-! ## The gatherer (src/taotie/gatherer.py)

_filter maps json.loads over the fetched batch; the map is strict, so the
first malformed entry raises JSONDecodeError for the whole batch (there is
no per-message recovery). -/

def gathererFilter : List Str → Option (List Json)
  | [] => some []
  | m :: ms =>
    match loads m with
    | none => none
    | some v => (gathererFilter ms).map fun vs => v :: vs

/-! ### The gatherer run loop as a step machine

One logical step of Gatherer.run per transition.  The phases follow the
control points of the loop body:

  - checkEmpty: top of the outer while-True, about to await empty().
  - sleepRecheck: inside the inner while check_empty loop: sleep the
    fetch interval, re-await empty(), then test the running flag -- the
    flag test here is the loop's only cancellation point.
  - fetchPhase: about to await get(batch_size).
  - processPhase b: about to await consumer.process(b).
  - donePhase: the CancelledError raised at the cancellation point was
    caught and run returned.
  - crashedPhase: an uncaught exception (a batch parse error) escaped run.
  - blockedPhase: only for the pub/sub backend: get is waiting for more
    messages than are available and no further message arrives.

The queue field holds the in-process queue contents, or for the pub/sub
backend the pending published messages that get will deliver in order. -/

inductive GPhase where
  | checkEmpty : GPhase
  | sleepRecheck : GPhase
  | fetchPhase : GPhase
  | processPhase (batch : List Json) : GPhase
  | donePhase : GPhase
  | crashedPhase : GPhase
  | blockedPhase : GPhase

def GPhase.isDone : GPhase → Bool
  | .donePhase => true
  | _ => false

def GPhase.isHalted : GPhase → Bool
  | .donePhase => true
  | .crashedPhase => true
  | .blockedPhase => true
  | _ => false

/-- Which queue backend the gatherer is attached to. -/
inductive Backend where
  | inProcess : Backend
  | pubSub : Backend

def Backend.emptyCheck : Backend → List Str → Bool
  | .inProcess, q => q.length = 0
  | .pubSub, _ => redisEmpty

structure GState where
  queue : List Str
  phase : GPhase
  fetchCount : Nat
  processed : List (List Json)

/-- One step of the gatherer loop with the running flag as seen at that
step.  consumer.process is awaited to completion within its step, so the
flag can never interrupt a batch being processed. -/
def gathererStep (b : Backend) (batchSize : Nat) (running : Bool) (s : GState) : GState :=
  match s.phase with
  | .donePhase => s
  | .crashedPhase => s
  | .blockedPhase => s
  | .checkEmpty =>
    if b.emptyCheck s.queue then { s with phase := .sleepRecheck }
    else { s with phase := .fetchPhase }
  | .sleepRecheck =>
    if !running then { s with phase := .donePhase }
    else if b.emptyCheck s.queue then { s with phase := .sleepRecheck }
    else { s with phase := .fetchPhase }
  | .fetchPhase =>
    match b with
    | .inProcess =>
      let r := simpleGetLoop s.queue batchSize
      if r.1 = [] then
        { s with queue := r.2, fetchCount := s.fetchCount + 1, phase := .checkEmpty }
      else
        match gathererFilter r.1 with
        | none => { s with queue := r.2, fetchCount := s.fetchCount + 1, phase := .crashedPhase }
        | some parsed =>
          { s with queue := r.2, fetchCount := s.fetchCount + 1, phase := .processPhase parsed }
    | .pubSub =>
      if s.queue.length < batchSize then { s with phase := .blockedPhase }
      else
        let batch := s.queue.take batchSize
        let rest := s.queue.drop batchSize
        if batch = [] then
          { s with queue := rest, fetchCount := s.fetchCount + 1, phase := .checkEmpty }
        else
          match gathererFilter batch with
          | none => { s with queue := rest, fetchCount := s.fetchCount + 1, phase := .crashedPhase }
          | some parsed =>
            { s with queue := rest, fetchCount := s.fetchCount + 1, phase := .processPhase parsed }
  | .processPhase batch =>
    { s with processed := s.processed ++ [batch], phase := .checkEmpty }

def gathererRun (b : Backend) (batchSize : Nat) (running : Bool) (s : GState) : Nat → GState
  | 0 => s
  | n + 1 => gathererRun b batchSize running (gathererStep b batchSize running s) n

/-! ## Dedup memory (src/taotie/storage/memory.py)

The external store is a Redis keyspace; the model is the set of saved
keys (values are timestamps, irrelevant to existence checks).  exists is
a key lookup; check_and_save without a ttl returns without writing when
the key exists and otherwise saves it. -/

abbrev DedupMemory := List Str

def DedupMemory.exists (mem : DedupMemory) (key : Str) : Bool :=
  mem.contains key

def DedupMemory.check_and_save (mem : DedupMemory) (key : Str) : DedupMemory :=
  if mem.exists key then mem else mem ++ [key]

/-! ## The source send path

The repository's shipped BaseSource._send_data (src/taotie/sources/base.py)
is a stale synchronous remnant: every current caller in src awaits it and
branches on its boolean result (sources/github.py line 55,
sources/huggingface.py line 87) and the shipped entry point constructs
sources with a dedup_memory argument (examples/summarize_to_notion), none
of which that remnant provides.  The current coroutine is therefore
modelled from the spec.

The sink put-call log records every string passed to sink.put, so that
counting put calls is observable. -/

structure SourceState where
  dedup_memory : Option DedupMemory
  sink : SimpleMessageQueue
  putCalls : List Str

/-- Modelled from the spec: the dedup-aware coroutine BaseSource._send_data
is missing from src (only its callers are present).  Per the spec contract:
(1) with a dedup memory configured, an existing record id is dropped with
result False before any put; (2) otherwise sink.put(record.encode()) runs;
(3) on a successful put with a dedup memory configured the id is saved via
checkAndSave; (4) the result is whether the record was enqueued. -/
def sendData (st : SourceState) (information : Information) : SourceState × Bool :=
  let message := information.encode
  match st.dedup_memory with
  | some mem =>
    if mem.exists information.get_id then (st, false)
    else
      let r := st.sink.put message
      let mem' := if r.2 then mem.check_and_save information.get_id else mem
      ({ dedup_memory := some mem', sink := r.1, putCalls := st.putCalls ++ [message] }, r.2)
  | none =>
    let r := st.sink.put message
    ({ st with sink := r.1, putCalls := st.putCalls ++ [message] }, r.2)

/-! ## The orchestrator

src/taotie/orchestrator.py holds a stale thread-based Orchestrator whose
run cannot be driven by the shipped entry point (examples/summarize_to_notion
runs asyncio.run(orchestrator.run()), which requires a coroutine).  The
current cooperative-task run is therefore modelled from the spec. -/

structure Orchestrator where
  sources : List Str
  gatherer : Option Unit

inductive OrchTask where
  | sourceTask (name : Str) : OrchTask
  | gathererTask : OrchTask

/-- Modelled from the spec: the cooperative-task Orchestrator.run is
missing from src (only its caller is present).  Per the spec: fail fast
(log and return, scheduling nothing) when no source is registered or no
gatherer is set; otherwise launch one task per source plus the gatherer
task.  none models the fail-fast return with no task scheduled. -/
def Orchestrator.run (o : Orchestrator) : Option (List OrchTask) :=
  if o.sources.isEmpty || o.gatherer.isNone then none
  else some (o.sources.map OrchTask.sourceTask ++ [OrchTask.gathererTask])

/-! ## The trending-repo source (src/taotie/sources/github.py)

get_readme returns the body on HTTP 200 and otherwise logs and raises
Exception(status).  process_repo awaits get_readme with no handler, and
the for-loop of run awaits process_repo with no handler, so the exception
propagates out of the polling loop.  The environment of one loop
iteration is the list of scraped repos, each with the response its
enrichment fetch will receive. -/

structure HttpResp where
  status : Nat
  body : Str

def get_readme (resp : HttpResp) : Except Nat Str :=
  if resp.status = 200 then .ok resp.body else .error resp.status

def process_repo (repo_name : Str) (datetime_str uri : Str) (resp : HttpResp) :
    Except Nat Information :=
  match get_readme resp with
  | .error e => .error e
  | .ok readme =>
    .ok { type := ['g', 'i', 't', 'h', 'u', 'b', '-', 'r', 'e', 'p', 'o'],
          id := repo_name, datetime_str := datetime_str, uri := uri,
          content := Json.str readme, kwargs := [] }

/-- The body of one iteration of GithubTrends.run over the scraped repo
list: each repo is processed then sent; returns the records passed to
_send_data and the first uncaught exception status, which aborts the
rest of the loop. -/
def githubRunIteration (datetime_str uri : Str) :
    List (Str × HttpResp) → List Information × Option Nat
  | [] => ([], none)
  | (name, resp) :: rest =>
    match process_repo name datetime_str uri resp with
    | .error e => ([], some e)
    | .ok info =>
      let r := githubRunIteration datetime_str uri rest
      (info :: r.1, r.2)

/-! ## The consumer dedup wrapper (src/taotie/consumer/base.py)

process filters the batch through _dedup when dedup is enabled, then
forwards to the subclass hook _process.  A parsed message is a Python
dict, i.e. an association list with last-binding-wins lookup; m["id"]
raises KeyError when absent (none here).  The in-memory index maps seen
id values to their message. -/

abbrev Msg := List (Str × Json)

/-- Python dict lookup: the last binding of a key wins. -/
def dictGet (m : Msg) (key : Str) : Option Json :=
  match m with
  | [] => none
  | (k, v) :: t =>
    match dictGet t key with
    | some w => some w
    | none => if k = key then some v else none

abbrev MemIndex := List (Json × Msg)

def MemIndex.hasKey (index : MemIndex) (i : Json) : Bool :=
  index.any fun p => Json.beq p.1 i

/-- Pair every message with its id value; none models the KeyError raised
by m["id"] on a message without an id. -/
def msgIds : List Msg → Option (List (Json × Msg))
  | [] => some []
  | m :: ms =>
    match dictGet m ['i', 'd'] with
    | none => none
    | some i => (msgIds ms).map fun ps => (i, m) :: ps

/-- Consumer._dedup: keep the messages whose id is not in the in-memory
index (the comprehension consults the index as it was before the call),
then update the index with the kept messages in one late step -- so only
ids recorded by an earlier process call are filtered, never duplicates
within the batch being filtered. -/
def consumerDedup (index : MemIndex) (messages : List Msg) :
    Option (List Msg × MemIndex) :=
  match msgIds messages with
  | none => none
  | some pairs =>
    let keptPairs := pairs.filter fun p => !(index.hasKey p.1)
    some (keptPairs.map Prod.snd, index ++ keptPairs)

/-- Consumer.process: dedup when enabled, then hand the surviving batch to
the _process hook.  Returns the batch given to the hook and the updated
index. -/
def consumerProcess (dedup : Bool) (index : MemIndex) (messages : List Msg) :
    Option (List Msg × MemIndex) :=
  if dedup then consumerDedup index messages
  else some (messages, index)

/-! ## Side conditions for the serialization proofs -/

mutual

/-- No non-integral number literal anywhere in the value: the decimal
rendering of a Python float is float formatting, outside this model; every
other value a record carries (strings, ints, bools, null, the extended
constants, arrays, objects) is covered. -/
def noFloat : Json → Bool
  | .fnum _ => false
  | .arr xs => noFloatList xs
  | .obj kvs => noFloatMembers kvs
  | _ => true
termination_by structural v => v

def noFloatList : List Json → Bool
  | [] => true
  | x :: t => noFloat x && noFloatList t
termination_by structural v => v

def noFloatMembers : List (Str × Json) → Bool
  | [] => true
  | (_, v) :: t => noFloat v && noFloatMembers t
termination_by structural v => v

end

/-- The characters that can legally follow a serialized value inside a
larger serialized document: nothing (end of input), an item separator, or
a closing bracket.  None of them can extend a number lexeme. -/
def Foll (rest : Str) : Prop :=
  rest = [] ∨ (∃ t, rest = ',' :: t) ∨ (∃ t, rest = ']' :: t) ∨ (∃ t, rest = '}' :: t)

/-- The serialized members of a non-empty object, with the opening quote
of the first key stripped (the position at which scanMembers starts). -/
def membersBody : List (Str × Json) → Str
  | [] => []
  | [(k, v)] => escString k ++ '"' :: ':' :: ' ' :: dumps v
  | (k, v) :: m :: t =>
    escString k ++ '"' :: ':' :: ' ' :: dumps v ++ ',' :: ' ' :: dumpsMembers (m :: t)

/-! # Helper lemmas -/

theorem simpleGetLoop_eq (q : List Str) (n : Nat) :
    simpleGetLoop q n = (q.take n, q.drop n) := by
  induction q generalizing n with
  | nil => cases n <;> simp [simpleGetLoop]
  | cons m qs ih => cases n with
    | zero => simp [simpleGetLoop]
    | succ b => simp [simpleGetLoop, ih]

theorem redisGet_length_le (polls : List (Option Str)) (n : Nat) :
    (redisGet polls n).length ≤ n := by
  induction polls generalizing n with
  | nil => cases n <;> simp [redisGet]
  | cons p ps ih =>
    cases n with
    | zero => simp [redisGet]
    | succ b =>
      cases p with
      | none => simp only [redisGet]; exact ih (b + 1)
      | some m =>
        simp only [redisGet, List.length_cons]
        exact Nat.succ_le_succ (ih b)

/-! # The claims -/

/-- C1: For every string s, MessageQueue.put(s) returns false and enqueues
nothing when s is not syntactically valid JSON, and enqueues s and returns
true when s is valid JSON; for the in-process backend the queue size is
unchanged in the failure case and increments by exactly one in the
success case. -/
theorem put_validation (q : SimpleMessageQueue) (s : Str) :
    (loads s = none →
      q.put s = (q, false) ∧ (q.put s).1.qsize = q.qsize) ∧
    (∀ v, loads s = some v →
      (q.put s).2 = true ∧ (q.put s).1.queue = q.queue ++ [s] ∧
      (q.put s).1.qsize = q.qsize + 1) := by
  unfold SimpleMessageQueue.put
  constructor
  · intro h
    rw [h]
    exact ⟨rfl, rfl⟩
  · intro v h
    rw [h]
    refine ⟨rfl, rfl, ?_⟩
    simp [SimpleMessageQueue.qsize]

theorem put_validation_witness :
    (SimpleMessageQueue.put ⟨[]⟩ ['n', 'o', 't'] = (⟨[]⟩, false) ∧
      (SimpleMessageQueue.put ⟨[]⟩ ['n', 'o', 't']).1.qsize = SimpleMessageQueue.qsize ⟨[]⟩) ∧
    ((SimpleMessageQueue.put ⟨[]⟩ ['1']).2 = true ∧
      (SimpleMessageQueue.put ⟨[]⟩ ['1']).1.queue = [] ++ [['1']] ∧
      (SimpleMessageQueue.put ⟨[]⟩ ['1']).1.qsize = SimpleMessageQueue.qsize ⟨[]⟩ + 1) :=
  ⟨(put_validation ⟨[]⟩ ['n', 'o', 't']).1 rfl,
    (put_validation ⟨[]⟩ ['1']).2 (Json.num 1) rfl⟩

/-- C6: For every batch size N and every queue state, get(batchSize=N)
returns at most N messages even when more than N messages are available,
for both the in-process backend and the pub/sub backend (whose observable
poll sequence is arbitrary). -/
theorem get_batch_cap (q : SimpleMessageQueue) (polls : List (Option Str)) (n : Nat) :
    (q.get n).1.length ≤ n ∧ (redisGet polls n).length ≤ n := by
  constructor
  · show (simpleGetLoop q.queue n).1.length ≤ n
    rw [simpleGetLoop_eq]
    simp
  · exact redisGet_length_le polls n

/-- C7: For the in-process backend, messages put in order m1, m2, m3 by a
single producer are returned by get(3) in exactly that order (FIFO), and
get returns only what is immediately available (the first
min(batchSize, size) queued messages) without blocking. -/
theorem fifo_order (m1 m2 m3 : Str)
    (h1 : (loads m1).isSome = true) (h2 : (loads m2).isSome = true)
    (h3 : (loads m3).isSome = true) :
    ((((SimpleMessageQueue.mk []).put m1).1.put m2).1.put m3).1.get 3 =
      ([m1, m2, m3], ⟨[]⟩) ∧
    (∀ (q : SimpleMessageQueue) (n : Nat),
      (q.get n).1 = q.queue.take n ∧ (q.get n).2.queue = q.queue.drop n) := by
  obtain ⟨v1, hv1⟩ := Option.isSome_iff_exists.mp h1
  obtain ⟨v2, hv2⟩ := Option.isSome_iff_exists.mp h2
  obtain ⟨v3, hv3⟩ := Option.isSome_iff_exists.mp h3
  constructor
  · simp only [SimpleMessageQueue.put, hv1, hv2, hv3, SimpleMessageQueue.get,
      simpleGetLoop_eq]
    rfl
  · intro q n
    simp [SimpleMessageQueue.get, simpleGetLoop_eq]

theorem fifo_order_witness :
    ((((SimpleMessageQueue.mk []).put ['1']).1.put ['2']).1.put ['3']).1.get 3 =
      ([['1'], ['2'], ['3']], ⟨[]⟩) :=
  (fifo_order ['1'] ['2'] ['3'] (by decide) (by decide) (by decide)).1

/-- C8: When the gatherer deserializes a fetched batch, a single malformed
(non-JSON) entry makes the whole batch parse fail: _filter returns a parse
error rather than any sublist (no per-message recovery forwarding the
well-formed entries), and the run loop delivers nothing of that batch to
consumer.process -- the uncaught JSONDecodeError aborts the loop. -/
theorem batch_parse_all_or_nothing (batch : List Str) (m : Str)
    (hm : m ∈ batch) (hbad : loads m = none) :
    gathererFilter batch = none ∧
    (∀ (bs : Nat) (run : Bool) (s : GState),
      s.phase = GPhase.fetchPhase →
      (simpleGetLoop s.queue bs).1 = batch →
      (gathererStep .inProcess bs run s).processed = s.processed ∧
      (gathererStep .inProcess bs run s).phase = GPhase.crashedPhase) := by
  have hfil : gathererFilter batch = none := by
    induction batch with
    | nil => cases hm
    | cons x xs ih =>
      rcases List.mem_cons.mp hm with rfl | hx
      · simp [gathererFilter, hbad]
      · cases hx' : loads x with
        | none => simp [gathererFilter, hx']
        | some v => simp [gathererFilter, hx', ih hx]
  refine ⟨hfil, ?_⟩
  intro bs run s hphase hget
  have hne : batch ≠ [] := by
    intro h
    rw [h] at hm
    cases hm
  obtain ⟨q, ph, fc, pr⟩ := s
  simp only at hphase
  subst hphase
  simp only [gathererStep, hget, hne, if_neg, hfil]
  exact ⟨rfl, rfl⟩

theorem batch_parse_all_or_nothing_witness :
    gathererFilter [['1'], ['x']] = none :=
  (batch_parse_all_or_nothing [['1'], ['x']] ['x'] (by decide) rfl).1

/-- C10: With consumer-level dedup enabled, a batch containing two messages
that share an id not present in the in-memory index has both messages
forwarded to the processing hook: the dedup filter consults only the index
as recorded by previous process calls (the index is updated after the
whole batch is filtered), so duplicates within one batch are never
removed. -/
theorem consumer_dedup_same_batch (index : MemIndex) (m1 m2 : Msg) (i : Json)
    (h1 : dictGet m1 ['i', 'd'] = some i) (h2 : dictGet m2 ['i', 'd'] = some i)
    (hnew : index.hasKey i = false) :
    consumerProcess true index [m1, m2] = some ([m1, m2], index ++ [(i, m1), (i, m2)]) ∧
    (∀ (idx : MemIndex) (msgs : List Msg) (pairs : List (Json × Msg)),
      msgIds msgs = some pairs →
      consumerDedup idx msgs =
        some ((pairs.filter fun p => !(idx.hasKey p.1)).map Prod.snd,
          idx ++ pairs.filter fun p => !(idx.hasKey p.1))) := by
  constructor
  · simp [consumerProcess, consumerDedup, msgIds, h1, h2, List.filter, hnew]
  · intro idx msgs pairs hp
    simp [consumerDedup, hp]

theorem consumer_dedup_same_batch_witness :
    consumerProcess true [] [[(['i', 'd'], Json.str ['x'])], [(['i', 'd'], Json.str ['x'])]] =
      some ([[(['i', 'd'], Json.str ['x'])], [(['i', 'd'], Json.str ['x'])]],
        [] ++ [(Json.str ['x'], [(['i', 'd'], Json.str ['x'])]),
          (Json.str ['x'], [(['i', 'd'], Json.str ['x'])])]) :=
  (consumer_dedup_same_batch [] [(['i', 'd'], Json.str ['x'])] [(['i', 'd'], Json.str ['x'])]
    (Json.str ['x']) rfl rfl rfl).1

theorem dedup_exists_append_self (mem : DedupMemory) (key : Str) :
    DedupMemory.exists (mem ++ [key]) key = true := by
  induction mem with
  | nil => simp [DedupMemory.exists]
  | cons k t ih =>
    simp only [DedupMemory.exists, List.cons_append, List.contains_cons]
    simp only [DedupMemory.exists] at ih
    rw [ih]
    simp

/-- C3: With a dedup memory configured on a source, _send_data first checks
dedupMemory.exists(record.id) and returns false without calling sink.put
when the id exists; consequently two _send_data calls for records sharing
an id (the first of which encodes to valid JSON) issue exactly one put
call to the sink, whose queue grows by exactly that one message, and the
return value of each call reports whether its record was enqueued. -/
theorem send_data_dedup (st : SourceState) (mem : DedupMemory) (r1 r2 : Information)
    (hmem : st.dedup_memory = some mem) :
    (mem.exists r1.get_id = true →
      sendData st r1 = (st, false)) ∧
    (mem.exists r1.get_id = false → r1.get_id = r2.get_id →
      (loads r1.encode).isSome = true →
      (sendData st r1).2 = true ∧
      (sendData (sendData st r1).1 r2).2 = false ∧
      (sendData (sendData st r1).1 r2).1.putCalls = st.putCalls ++ [r1.encode] ∧
      (sendData (sendData st r1).1 r2).1.sink.queue = st.sink.queue ++ [r1.encode]) := by
  constructor
  · intro hex
    simp [sendData, hmem, hex]
  · intro hex hid hvalid
    obtain ⟨v, hv⟩ := Option.isSome_iff_exists.mp hvalid
    have hput : st.sink.put r1.encode = (⟨st.sink.queue ++ [r1.encode]⟩, true) := by
      simp [SimpleMessageQueue.put, hv]
    have hnm : ¬ r1.get_id ∈ mem := by
      simpa [DedupMemory.exists] using hex
    have hstep1 : sendData st r1 =
        ({ dedup_memory := some (mem ++ [r1.get_id]),
           sink := ⟨st.sink.queue ++ [r1.encode]⟩,
           putCalls := st.putCalls ++ [r1.encode] }, true) := by
      simp [sendData, hmem, hex, hput, DedupMemory.check_and_save, DedupMemory.exists, hnm]
    have hex2 : DedupMemory.exists (mem ++ [r1.get_id]) r2.get_id = true := by
      rw [← hid]
      exact dedup_exists_append_self mem r1.get_id
    refine ⟨by rw [hstep1], ?_, ?_, ?_⟩ <;>
      rw [hstep1] <;> simp [sendData, hex2]

theorem send_data_dedup_witness :
    (sendData
      (sendData ⟨some [], ⟨[]⟩, []⟩
        ⟨['t'], ['i'], ['d'], ['u'], Json.null, []⟩).1
      ⟨['t'], ['i'], ['d'], ['u'], Json.bool true, []⟩).2 = false :=
  ((send_data_dedup ⟨some [], ⟨[]⟩, []⟩ []
      ⟨['t'], ['i'], ['d'], ['u'], Json.null, []⟩
      ⟨['t'], ['i'], ['d'], ['u'], Json.bool true, []⟩ rfl).2
    rfl rfl (by decide)).2.1

/-- C4: Orchestrator.run() with zero registered sources, or with no
gatherer set, fails fast: it logs an error and returns without scheduling
any task -- in particular the gatherer task is never started. -/
theorem orchestrator_fail_fast (o : Orchestrator)
    (h : o.sources = [] ∨ o.gatherer = none) :
    o.run = none := by
  rcases h with h | h <;> simp [Orchestrator.run, h]

theorem orchestrator_fail_fast_witness :
    Orchestrator.run ⟨[], some ()⟩ = none :=
  orchestrator_fail_fast ⟨[], some ()⟩ (Or.inl rfl)

/-- C9 counterexample: for the trending-repo source, an enrichment fetch
answered with HTTP 404 is fatal at that loop iteration -- the record is
NOT emitted (no _send_data call happens) and the exception propagates out
of the polling loop with the failing status, contradicting the claim that
the record is still emitted with an empty enrichment field and that the
failure never propagates. -/
theorem github_enrichment_cex :
    (githubRunIteration ['d'] ['u'] [(['/', 'a'], ⟨404, []⟩)]).1 = [] ∧
    (githubRunIteration ['d'] ['u'] [(['/', 'a'], ⟨404, []⟩)]).2 = some 404 :=
  ⟨rfl, rfl⟩

/-- C9 amended: a failed enrichment fetch (non-200 status) raises
Exception(status) in get_readme; neither process_repo nor the run loop
handles it, so the iteration emits no record at all and the exception
propagates out of the polling loop. -/
theorem github_enrichment_propagates (name d u : Str) (resp : HttpResp)
    (h : resp.status ≠ 200) (rest : List (Str × HttpResp)) :
    get_readme resp = Except.error resp.status ∧
    process_repo name d u resp = Except.error resp.status ∧
    githubRunIteration d u ((name, resp) :: rest) = ([], some resp.status) := by
  have hg : get_readme resp = Except.error resp.status := by
    simp [get_readme, h]
  have hp : process_repo name d u resp = Except.error resp.status := by
    simp [process_repo, hg]
  exact ⟨hg, hp, by simp [githubRunIteration, hp]⟩

theorem github_enrichment_propagates_witness :
    githubRunIteration ['d'] ['u'] [(['r'], ⟨500, ['x']⟩)] = ([], some 500) :=
  (github_enrichment_propagates ['r'] ['d'] ['u'] ⟨500, ['x']⟩ (by decide) []).2.2

/-- C5 counterexample: with the pub/sub backend attached, empty() is
constantly false, so the only cancellation point of the gatherer loop (the
flag test inside the empty-wait) is unreachable: starting at the loop top
with the running flag already false and two published messages, the loop
still fetches two batches, processes both, and has not exited after eight
steps (nor ever: the non-done phases reached are absorbing or repeat) --
contradicting the claim that, for every backend, flipping the flag makes
the loop exit at its next cancellation point without fetching another
batch. -/
theorem gatherer_cancellation_cex :
    (gathererRun .pubSub 1 false
      { queue := [['1'], ['2']], phase := .checkEmpty, fetchCount := 0, processed := [] }
      8).fetchCount = 2 ∧
    (gathererRun .pubSub 1 false
      { queue := [['1'], ['2']], phase := .checkEmpty, fetchCount := 0, processed := [] }
      8).processed.length = 2 ∧
    ((List.range 9).all fun n =>
      !(gathererRun .pubSub 1 false
        { queue := [['1'], ['2']], phase := .checkEmpty, fetchCount := 0, processed := [] }
        n).phase.isDone) = true :=
  ⟨rfl, rfl, rfl⟩

theorem gathererRun_of_done (b : Backend) (bs : Nat) (run : Bool) (s : GState) (n : Nat)
    (h : s.phase = GPhase.donePhase) : gathererRun b bs run s n = s := by
  have hs : gathererStep b bs run s = s := by
    obtain ⟨q, ph, fc, pr⟩ := s
    simp only at h
    subst h
    rfl
  induction n with
  | zero => rfl
  | succ n ih =>
    rw [show gathererRun b bs run s (n + 1) =
      gathererRun b bs run (gathererStep b bs run s) n from rfl, hs]
    exact ih

theorem gathererFilter_of_valid (l : List Str)
    (h : ∀ m ∈ l, (loads m).isSome = true) :
    ∃ vs, gathererFilter l = some vs := by
  induction l with
  | nil => exact ⟨[], rfl⟩
  | cons m ms ih =>
    obtain ⟨v, hv⟩ := Option.isSome_iff_exists.mp (h m (List.mem_cons_self m ms))
    obtain ⟨vs, hvs⟩ := ih fun x hx => h x (List.mem_cons_of_mem m hx)
    exact ⟨v :: vs, by simp [gathererFilter, hv, hvs]⟩

theorem gatherer_drain_from_loop_top (k : Nat) :
    ∀ (q : List Str) (fc : Nat) (pr : List (List Json)) (bs : Nat),
      1 ≤ bs → q.length ≤ k → (∀ m ∈ q, (loads m).isSome = true) →
      ∃ n, (gathererRun .inProcess bs false ⟨q, .checkEmpty, fc, pr⟩ n).phase.isDone = true := by
  induction k with
  | zero =>
    intro q fc pr bs hbs hlen hval
    have hq : q = [] := List.eq_nil_of_length_eq_zero (Nat.le_zero.mp hlen)
    subst hq
    exact ⟨2, rfl⟩
  | succ k ih =>
    intro q fc pr bs hbs hlen hval
    cases q with
    | nil => exact ⟨2, rfl⟩
    | cons m qs =>
      obtain ⟨b, rfl⟩ := Nat.exists_eq_add_of_le hbs
      have e1 : gathererStep .inProcess (1 + b) false ⟨m :: qs, .checkEmpty, fc, pr⟩ =
          ⟨m :: qs, .fetchPhase, fc, pr⟩ := by
        simp [gathererStep, Backend.emptyCheck]
      have hbatch : (simpleGetLoop (m :: qs) (1 + b)).1 = m :: qs.take b := by
        rw [simpleGetLoop_eq, Nat.add_comm 1 b]
        simp [List.take_succ_cons]
      have hvalb : ∀ x ∈ m :: qs.take b, (loads x).isSome = true := by
        intro x hx
        apply hval
        rcases List.mem_cons.mp hx with rfl | hx'
        · exact List.mem_cons_self _ _
        · exact List.mem_cons_of_mem _ (List.mem_of_mem_take hx')
      obtain ⟨vs, hvs⟩ := gathererFilter_of_valid _ hvalb
      have e2 : gathererStep .inProcess (1 + b) false ⟨m :: qs, .fetchPhase, fc, pr⟩ =
          ⟨qs.drop b, .processPhase vs, fc + 1, pr⟩ := by
        simp only [gathererStep, simpleGetLoop_eq, hvs]
        rw [Nat.add_comm 1 b]
        simp [List.take_succ_cons, List.drop_succ_cons,
          show ((m :: qs.take b : List Str) = []) = False by simp, hvs]
      have e3 : gathererStep .inProcess (1 + b) false ⟨qs.drop b, .processPhase vs, fc + 1, pr⟩ =
          ⟨qs.drop b, .checkEmpty, fc + 1, pr ++ [vs]⟩ := rfl
      obtain ⟨n, hn⟩ := ih (qs.drop b) (fc + 1) (pr ++ [vs]) (1 + b) hbs
        (by
          have : qs.length ≤ k := Nat.le_of_succ_le_succ hlen
          calc (qs.drop b).length = qs.length - b := by simp
          _ ≤ qs.length := Nat.sub_le _ _
          _ ≤ k := this)
        (fun x hx => hval x (List.mem_cons_of_mem m (List.mem_of_mem_drop hx)))
      refine ⟨n + 3, ?_⟩
      have : gathererRun .inProcess (1 + b) false ⟨m :: qs, .checkEmpty, fc, pr⟩ (n + 3) =
          gathererRun .inProcess (1 + b) false ⟨qs.drop b, .checkEmpty, fc + 1, pr ++ [vs]⟩ n := by
        show gathererRun .inProcess (1 + b) false
          (gathererStep .inProcess (1 + b) false
            (gathererStep .inProcess (1 + b) false
              (gathererStep .inProcess (1 + b) false ⟨m :: qs, .checkEmpty, fc, pr⟩))) n = _
        rw [e1, e2, e3]
      rw [this]
      exact hn

/-- C5 amended: the flag is consulted at exactly one cancellation point,
the re-check that follows the sleep inside the empty-wait loop, and an
awaited consumer.process always completes its batch before the loop can
exit, so (1) a processing step records its whole batch and returns to the
loop top, (2) the loop reaches the done state only from the cancellation
point with the running flag false, (3) once done, no further step fetches
or processes anything, and (4) with the in-process backend, a positive
batch size and well-formed queued messages, a gatherer whose flag is false
reaches the done state in finitely many steps (once its queue drains and
the empty-wait is entered).  With the pub/sub backend, empty() is always
false, the cancellation point is unreachable, and the loop keeps fetching
(see the counterexample): only an injected task cancellation stops it. -/
theorem gatherer_cancellation_amended :
    (∀ (b : Backend) (bs : Nat) (run : Bool) (s : GState) (batch : List Json),
      s.phase = GPhase.processPhase batch →
      (gathererStep b bs run s).processed = s.processed ++ [batch] ∧
      (gathererStep b bs run s).phase = GPhase.checkEmpty) ∧
    (∀ (b : Backend) (bs : Nat) (run : Bool) (s : GState),
      (gathererStep b bs run s).phase.isDone = true →
      s.phase.isDone = true ∨ (s.phase = GPhase.sleepRecheck ∧ run = false)) ∧
    (∀ (b : Backend) (bs : Nat) (run : Bool) (s : GState) (n : Nat),
      s.phase = GPhase.donePhase → gathererRun b bs run s n = s) ∧
    (∀ (s : GState) (bs : Nat),
      1 ≤ bs → s.phase.isHalted = false →
      (∀ m ∈ s.queue, (loads m).isSome = true) →
      ∃ n, (gathererRun .inProcess bs false s n).phase.isDone = true) := by
  refine ⟨?_, ?_, ?_, ?_⟩
  · intro b bs run s batch h
    obtain ⟨q, ph, fc, pr⟩ := s
    simp only at h
    subst h
    exact ⟨rfl, rfl⟩
  · intro b bs run s h
    obtain ⟨q, ph, fc, pr⟩ := s
    cases ph with
    | checkEmpty =>
      exfalso
      simp only [gathererStep] at h
      split at h <;> simp [GPhase.isDone] at h
    | sleepRecheck =>
      cases run with
      | true =>
        exfalso
        simp only [gathererStep, Bool.not_true] at h
        split at h <;> try split at h
        all_goals simp_all [GPhase.isDone]
      | false => exact Or.inr ⟨rfl, rfl⟩
    | fetchPhase =>
      exfalso
      cases b with
      | inProcess =>
        simp only [gathererStep] at h
        split at h
        · simp [GPhase.isDone] at h
        · split at h <;> simp [GPhase.isDone] at h
      | pubSub =>
        simp only [gathererStep] at h
        split at h
        · simp [GPhase.isDone] at h
        · split at h
          · simp [GPhase.isDone] at h
          · split at h <;> simp [GPhase.isDone] at h
    | processPhase batch => simp [gathererStep, GPhase.isDone] at h
    | donePhase => exact Or.inl rfl
    | crashedPhase => simp [gathererStep, GPhase.isDone] at h
    | blockedPhase => simp [gathererStep, GPhase.isDone] at h
  · intro b bs run s n h
    exact gathererRun_of_done b bs run s n h
  · intro s bs hbs hhalt hval
    obtain ⟨q, ph, fc, pr⟩ := s
    simp only at hhalt hval ⊢
    cases ph with
    | checkEmpty =>
      exact gatherer_drain_from_loop_top q.length q fc pr bs hbs le_rfl hval
    | sleepRecheck =>
      refine ⟨1, ?_⟩
      rfl
    | fetchPhase =>
      cases q with
      | nil =>
        have e : gathererStep .inProcess bs false ⟨[], .fetchPhase, fc, pr⟩ =
            ⟨[], .checkEmpty, fc + 1, pr⟩ := by
          simp [gathererStep, simpleGetLoop_eq]
        obtain ⟨n, hn⟩ := gatherer_drain_from_loop_top 0 [] (fc + 1) pr bs hbs
          (by simp) (by simp)
        refine ⟨n + 1, ?_⟩
        rw [show gathererRun .inProcess bs false ⟨[], .fetchPhase, fc, pr⟩ (n + 1) =
          gathererRun .inProcess bs false
            (gathererStep .inProcess bs false ⟨[], .fetchPhase, fc, pr⟩) n from rfl, e]
        exact hn
      | cons m qs =>
        obtain ⟨b, rfl⟩ := Nat.exists_eq_add_of_le hbs
        have hvalb : ∀ x ∈ m :: qs.take b, (loads x).isSome = true := by
          intro x hx
          apply hval
          rcases List.mem_cons.mp hx with rfl | hx'
          · exact List.mem_cons_self _ _
          · exact List.mem_cons_of_mem _ (List.mem_of_mem_take hx')
        obtain ⟨vs, hvs⟩ := gathererFilter_of_valid _ hvalb
        have e2 : gathererStep .inProcess (1 + b) false ⟨m :: qs, .fetchPhase, fc, pr⟩ =
            ⟨qs.drop b, .processPhase vs, fc + 1, pr⟩ := by
          simp only [gathererStep, simpleGetLoop_eq]
          rw [Nat.add_comm 1 b]
          simp [List.take_succ_cons, List.drop_succ_cons,
            show ((m :: qs.take b : List Str) = []) = False by simp, hvs]
        have e3 : gathererStep .inProcess (1 + b) false
            ⟨qs.drop b, .processPhase vs, fc + 1, pr⟩ =
            ⟨qs.drop b, .checkEmpty, fc + 1, pr ++ [vs]⟩ := rfl
        obtain ⟨n, hn⟩ := gatherer_drain_from_loop_top (qs.drop b).length (qs.drop b)
          (fc + 1) (pr ++ [vs]) (1 + b) hbs le_rfl
          (fun x hx => hval x (List.mem_cons_of_mem _ (List.mem_of_mem_drop hx)))
        refine ⟨n + 2, ?_⟩
        rw [show gathererRun .inProcess (1 + b) false ⟨m :: qs, .fetchPhase, fc, pr⟩ (n + 2) =
          gathererRun .inProcess (1 + b) false
            (gathererStep .inProcess (1 + b) false
              (gathererStep .inProcess (1 + b) false ⟨m :: qs, .fetchPhase, fc, pr⟩)) n from rfl,
          e2, e3]
        exact hn
    | processPhase batch =>
      have e : gathererStep .inProcess bs false ⟨q, .processPhase batch, fc, pr⟩ =
          ⟨q, .checkEmpty, fc, pr ++ [batch]⟩ := rfl
      obtain ⟨n, hn⟩ := gatherer_drain_from_loop_top q.length q fc (pr ++ [batch]) bs hbs
        le_rfl hval
      refine ⟨n + 1, ?_⟩
      rw [show gathererRun .inProcess bs false ⟨q, .processPhase batch, fc, pr⟩ (n + 1) =
        gathererRun .inProcess bs false
          (gathererStep .inProcess bs false ⟨q, .processPhase batch, fc, pr⟩) n from rfl, e]
      exact hn
    | donePhase => simp [GPhase.isHalted] at hhalt
    | crashedPhase => simp [GPhase.isHalted] at hhalt
    | blockedPhase => simp [GPhase.isHalted] at hhalt

theorem gatherer_cancellation_amended_witness :
    ∃ n, (gathererRun .inProcess 1 false
      { queue := [['7']], phase := .checkEmpty, fetchCount := 0, processed := [] }
      n).phase.isDone = true :=
  gatherer_cancellation_amended.2.2.2
    { queue := [['7']], phase := .checkEmpty, fetchCount := 0, processed := [] }
    1 (by decide) rfl (by decide)

/-! ## Serialization round-trip: character-level lemmas -/

theorem toNat_ofNat_small (n : Nat) (h : n < 0xD800) : (Char.ofNat n).toNat = n := by
  simp [Char.ofNat, Char.toNat, Nat.isValidChar, h, Char.ofNatAux]
  rfl

theorem char_ne_of_toNat_ne (a b : Char) (h : a.toNat ≠ b.toNat) : a ≠ b :=
  fun e => h (congrArg Char.toNat e)

theorem digitChar_toNat (d : Nat) (h : d < 10) : (digitChar d).toNat = 48 + d := by
  unfold digitChar
  exact toNat_ofNat_small _ (by omega)

theorem isDigitChar_digitChar (d : Nat) (h : d < 10) : isDigitChar (digitChar d) = true := by
  simp [isDigitChar, digitChar_toNat d h]
  omega

theorem digitChar_ne_zero (d : Nat) (h0 : 0 < d) (h10 : d < 10) : digitChar d ≠ '0' := by
  apply char_ne_of_toNat_ne
  rw [digitChar_toNat d h10]
  intro he
  rw [show ('0' : Char).toNat = 48 from rfl] at he
  omega

theorem hexVal_hexDigit (d : Nat) (h : d < 16) : hexVal (hexDigit d) = some d := by
  interval_cases d <;> decide

theorem hex4_escape (a b : Nat) (ha : a < 16) (hb : b < 16) :
    hex4 '0' '0' (hexDigit a) (hexDigit b) = some (a * 16 + b) := by
  simp [hex4, show hexVal '0' = some 0 from rfl, hexVal_hexDigit a ha, hexVal_hexDigit b hb]

theorem digit_not_ws (d : Char) (h : isDigitChar d = true) : isWsChar d = false := by
  by_cases h1 : d = ' '
  · exact absurd (h1 ▸ h) (by decide)
  by_cases h2 : d = '\t'
  · exact absurd (h2 ▸ h) (by decide)
  by_cases h3 : d = '\n'
  · exact absurd (h3 ▸ h) (by decide)
  by_cases h4 : d = '\r'
  · exact absurd (h4 ▸ h) (by decide)
  simp [isWsChar, h1, h2, h3, h4]

theorem escString_nil : escString [] = [] := rfl

theorem escString_cons (c : Char) (s : Str) :
    escString (c :: s) = escChar c ++ escString s := by
  simp [escString]

theorem skipWs_not_ws (c : Char) (t : Str) (h : isWsChar c = false) :
    skipWs (c :: t) = c :: t := by
  simp [skipWs, h]

theorem scanStringF_other (f : Nat) (c : Char) (t : Str)
    (hq : c ≠ '"') (hb : c ≠ '\\') :
    scanStringF (f + 1) (c :: t) =
      if c.toNat < 0x20 then none
      else (scanStringF f t).map fun r => (c :: r.1, r.2) := by
  rw [scanStringF.eq_def]
  split
  · omega
  · rename_i heq
    exact absurd heq (by simp)
  · rename_i heq
    injection heq with h1 _
    exact (hq h1).elim
  · rename_i heq
    injection heq with h1 _
    exact (hb h1).elim
  · rename_i heq
    injection heq with h1 _
    exact (hb h1).elim
  · rename_i fuel2 c2 t2 _ _ _ hf heq
    injection heq with hc ht
    have hfu : fuel2 = f := by omega
    subst hc ht hfu
    rfl

theorem scanStringF_u (f : Nat) (h1 h2 h3 h4 : Char) (n : Nat) (t : Str)
    (hhex : hex4 h1 h2 h3 h4 = some n) (hn : n < 0xD800) :
    scanStringF (f + 1) ('\\' :: 'u' :: h1 :: h2 :: h3 :: h4 :: t) =
      (scanStringF f t).map fun r => (Char.ofNat n :: r.1, r.2) := by
  have e : scanStringF (f + 1) ('\\' :: 'u' :: h1 :: h2 :: h3 :: h4 :: t) =
      match hex4 h1 h2 h3 h4 with
      | none => none
      | some n =>
        if 0xD800 ≤ n ∧ n ≤ 0xDBFF then scanSurrogateF f n t
        else (scanStringF f t).map fun r => (Char.ofNat n :: r.1, r.2) := rfl
  rw [e, hhex]
  exact if_neg (by omega)

theorem scanStringF_print (s : Str) : ∀ (rest : Str) (fuel : Nat),
    s.length + 1 ≤ fuel →
    scanStringF fuel (escString s ++ '"' :: rest) = some (s, rest) := by
  induction s with
  | nil =>
    intro rest fuel hf
    obtain ⟨f, rfl⟩ : ∃ f, fuel = f + 1 := ⟨fuel - 1, by omega⟩
    rfl
  | cons c s ih =>
    intro rest fuel hf
    obtain ⟨f, rfl⟩ : ∃ f, fuel = f + 1 := ⟨fuel - 1, by omega⟩
    have hfs : s.length + 1 ≤ f := by
      simp only [List.length_cons] at hf
      omega
    have e := ih rest f hfs
    rw [escString_cons, List.append_assoc]
    by_cases hq : c = '"'
    · subst hq
      rw [show escChar '"' = ['\\', '"'] from rfl]
      show (scanStringF f (escString s ++ '"' :: rest)).map
        (fun r => (('"' : Char) :: r.1, r.2)) = _
      rw [e]
      rfl
    by_cases hb : c = '\\'
    · subst hb
      rw [show escChar '\\' = ['\\', '\\'] from rfl]
      show (scanStringF f (escString s ++ '"' :: rest)).map
        (fun r => (('\\' : Char) :: r.1, r.2)) = _
      rw [e]
      rfl
    by_cases hn : c = '\n'
    · subst hn
      rw [show escChar '\n' = ['\\', 'n'] from rfl]
      show (scanStringF f (escString s ++ '"' :: rest)).map
        (fun r => (('\n' : Char) :: r.1, r.2)) = _
      rw [e]
      rfl
    by_cases hr : c = '\r'
    · subst hr
      rw [show escChar '\r' = ['\\', 'r'] from rfl]
      show (scanStringF f (escString s ++ '"' :: rest)).map
        (fun r => (('\r' : Char) :: r.1, r.2)) = _
      rw [e]
      rfl
    by_cases ht : c = '\t'
    · subst ht
      rw [show escChar '\t' = ['\\', 't'] from rfl]
      show (scanStringF f (escString s ++ '"' :: rest)).map
        (fun r => (('\t' : Char) :: r.1, r.2)) = _
      rw [e]
      rfl
    by_cases h8 : c.toNat = 8
    · have hc : c = Char.ofNat 8 := by
        rw [← h8, Char.ofNat_toNat]
      subst hc
      rw [show escChar (Char.ofNat 8) = ['\\', 'b'] from rfl]
      show (scanStringF f (escString s ++ '"' :: rest)).map
        (fun r => (Char.ofNat 8 :: r.1, r.2)) = _
      rw [e]
      rfl
    by_cases h12 : c.toNat = 12
    · have hc : c = Char.ofNat 12 := by
        rw [← h12, Char.ofNat_toNat]
      subst hc
      rw [show escChar (Char.ofNat 12) = ['\\', 'f'] from rfl]
      show (scanStringF f (escString s ++ '"' :: rest)).map
        (fun r => (Char.ofNat 12 :: r.1, r.2)) = _
      rw [e]
      rfl
    by_cases hctl : c.toNat < 0x20
    · have heg : escChar c =
          ['\\', 'u', '0', '0', hexDigit (c.toNat / 16), hexDigit (c.toNat % 16)] := by
        have e1 : (c = '\n') = False := by simp [hn]
        have e2 : (c = '\r') = False := by simp [hr]
        have e3 : (c = '\t') = False := by simp [ht]
        have e4 : (c = '"') = False := by simp [hq]
        have e5 : (c = '\\') = False := by simp [hb]
        simp [escChar, e1, e2, e3, e4, e5, h8, h12, hctl]
      rw [heg]
      rw [show (['\\', 'u', '0', '0', hexDigit (c.toNat / 16), hexDigit (c.toNat % 16)] : Str)
          ++ (escString s ++ '"' :: rest) =
        '\\' :: 'u' :: '0' :: '0' :: hexDigit (c.toNat / 16) :: hexDigit (c.toNat % 16)
          :: (escString s ++ '"' :: rest) from rfl]
      have hhex : hex4 '0' '0' (hexDigit (c.toNat / 16)) (hexDigit (c.toNat % 16)) =
          some c.toNat := by
        rw [hex4_escape (c.toNat / 16) (c.toNat % 16) (by omega) (by omega)]
        congr 1
        omega
      rw [scanStringF_u f _ _ _ _ _ _ hhex (by omega), e, Char.ofNat_toNat]
      rfl
    · have heg : escChar c = [c] := by
        have e1 : (c = '\n') = False := by simp [hn]
        have e2 : (c = '\r') = False := by simp [hr]
        have e3 : (c = '\t') = False := by simp [ht]
        have e4 : (c = '"') = False := by simp [hq]
        have e5 : (c = '\\') = False := by simp [hb]
        simp [escChar, e1, e2, e3, e4, e5, h8, h12, hctl]
      rw [heg]
      rw [show ([c] : Str) ++ (escString s ++ '"' :: rest) =
        c :: (escString s ++ '"' :: rest) from rfl]
      rw [scanStringF_other f c _ hq hb, if_neg hctl, e]
      rfl

theorem escString_length_ge (s : Str) : s.length ≤ (escString s).length := by
  induction s with
  | nil => simp [escString]
  | cons c s ih =>
    rw [escString_cons]
    have h1 : 1 ≤ (escChar c).length := by
      unfold escChar
      split_ifs <;> simp
    simp only [List.length_append, List.length_cons]
    omega

/-- The wrapper scanString inverts the serializer's string escaping. -/
theorem scanString_print (s rest : Str) :
    scanString (escString s ++ '"' :: rest) = some (s, rest) := by
  apply scanStringF_print
  have := escString_length_ge s
  simp only [List.length_append, List.length_cons]
  omega

/-! ## Serialization round-trip: number lemmas -/

theorem natToCharsAux_zero (fuel : Nat) (acc : Str) : natToCharsAux fuel 0 acc = acc := by
  cases fuel <;> rfl

theorem natToCharsAux_append (fuel : Nat) :
    ∀ (n : Nat) (acc : Str), natToCharsAux fuel n acc = natToCharsAux fuel n [] ++ acc := by
  induction fuel with
  | zero => intro n acc; rfl
  | succ f ih =>
    intro n acc
    cases n with
    | zero => rfl
    | succ m =>
      show natToCharsAux f ((m + 1) / 10) (digitChar ((m + 1) % 10) :: acc) = _
      rw [ih ((m + 1) / 10) (digitChar ((m + 1) % 10) :: acc)]
      conv_rhs =>
        rw [show natToCharsAux (f + 1) (m + 1) [] =
          natToCharsAux f ((m + 1) / 10) [digitChar ((m + 1) % 10)] from rfl]
        rw [ih ((m + 1) / 10) [digitChar ((m + 1) % 10)]]
      simp

theorem natToCharsAux_all_digits (fuel : Nat) :
    ∀ (n : Nat) (acc : Str), (∀ c ∈ acc, isDigitChar c = true) →
      ∀ c ∈ natToCharsAux fuel n acc, isDigitChar c = true := by
  induction fuel with
  | zero => intro n acc hacc; exact hacc
  | succ f ih =>
    intro n acc hacc
    cases n with
    | zero => exact hacc
    | succ m =>
      refine ih ((m + 1) / 10) _ ?_
      intro c hc
      rcases List.mem_cons.mp hc with rfl | hc'
      · exact isDigitChar_digitChar _ (Nat.mod_lt _ (by omega))
      · exact hacc c hc'

theorem natToCharsAux_struct (fuel : Nat) :
    ∀ (n : Nat), 0 < n → n ≤ fuel →
      ∃ d ds, natToCharsAux fuel n [] = d :: ds ∧ isDigitChar d = true ∧ d ≠ '0' := by
  induction fuel with
  | zero => intro n h0 hle; omega
  | succ f ih =>
    intro n h0 hle
    obtain ⟨m, rfl⟩ : ∃ m, n = m + 1 := ⟨n - 1, by omega⟩
    rw [show natToCharsAux (f + 1) (m + 1) [] =
      natToCharsAux f ((m + 1) / 10) [digitChar ((m + 1) % 10)] from rfl]
    by_cases hq : (m + 1) / 10 = 0
    · rw [hq, natToCharsAux_zero]
      have hm : m + 1 < 10 := by omega
      have hr : (m + 1) % 10 = m + 1 := Nat.mod_eq_of_lt hm
      exact ⟨digitChar ((m + 1) % 10), [],
        rfl, isDigitChar_digitChar _ (Nat.mod_lt _ (by omega)),
        by rw [hr]; exact digitChar_ne_zero _ (by omega) hm⟩
    · rw [natToCharsAux_append]
      obtain ⟨d, ds, hds, hdig, hne⟩ := ih ((m + 1) / 10) (by omega)
        (by
          have := Nat.div_lt_self (show 0 < m + 1 by omega) (show 1 < 10 by omega)
          omega)
      exact ⟨d, ds ++ [digitChar ((m + 1) % 10)], by rw [hds]; simp, hdig, hne⟩

theorem natToCharsAux_val (fuel : Nat) :
    ∀ (n : Nat), 0 < n → n ≤ fuel → ∀ (a : Nat),
      List.foldl (fun a c => a * 10 + (c.toNat - 48)) a (natToCharsAux fuel n []) =
        a * 10 ^ (natToCharsAux fuel n []).length + n := by
  induction fuel with
  | zero => intro n h0 hle; omega
  | succ f ih =>
    intro n h0 hle a
    obtain ⟨m, rfl⟩ : ∃ m, n = m + 1 := ⟨n - 1, by omega⟩
    rw [show natToCharsAux (f + 1) (m + 1) [] =
      natToCharsAux f ((m + 1) / 10) [digitChar ((m + 1) % 10)] from rfl]
    rw [natToCharsAux_append]
    rw [List.foldl_append, List.length_append]
    have hdt : (digitChar ((m + 1) % 10)).toNat - 48 = (m + 1) % 10 := by
      rw [digitChar_toNat _ (Nat.mod_lt _ (by omega))]
      omega
    by_cases hq : (m + 1) / 10 = 0
    · rw [hq, natToCharsAux_zero]
      simp only [List.foldl_nil, List.foldl_cons, List.length_nil, List.length_cons]
      rw [hdt]
      have : (m + 1) % 10 = m + 1 := Nat.mod_eq_of_lt (by omega)
      simp [this]
    · have hlt : (m + 1) / 10 ≤ f := by
        have := Nat.div_lt_self (show 0 < m + 1 by omega) (show 1 < 10 by omega)
        omega
      rw [ih ((m + 1) / 10) (by omega) hlt a]
      simp only [List.foldl_cons, List.foldl_nil, List.length_cons, List.length_nil]
      rw [hdt]
      have hpow : 10 ^ ((natToCharsAux f ((m + 1) / 10) []).length + (0 + 1)) =
          10 ^ (natToCharsAux f ((m + 1) / 10) []).length * 10 := by
        rw [Nat.zero_add, Nat.pow_succ]
      rw [hpow]
      have hdm := Nat.div_add_mod (m + 1) 10
      ring_nf
      omega

theorem digitsToNat_natToChars (n : Nat) : digitsToNat (natToChars n) = n := by
  by_cases h : n = 0
  · subst h; rfl
  · unfold natToChars digitsToNat
    rw [if_neg h, natToCharsAux_val n n (by omega) le_rfl 0]
    simp

theorem natToChars_struct (n : Nat) (h : 0 < n) :
    ∃ d ds, natToChars n = d :: ds ∧ isDigitChar d = true ∧ d ≠ '0' ∧
      (∀ c ∈ ds, isDigitChar c = true) := by
  obtain ⟨d, ds, hds, hdig, hne⟩ := natToCharsAux_struct n n h le_rfl
  refine ⟨d, ds, by rw [natToChars, if_neg (by omega)]; exact hds, hdig, hne, ?_⟩
  intro c hc
  have := natToCharsAux_all_digits n n [] (by simp) c (by rw [hds]; exact List.mem_cons_of_mem d hc)
  exact this

theorem takeDigits_run (ds : Str) (rest : Str)
    (hds : ∀ c ∈ ds, isDigitChar c = true)
    (hrest : ∀ c t, rest = c :: t → isDigitChar c = false) :
    takeDigits (ds ++ rest) = (ds, rest) := by
  induction ds with
  | nil =>
    cases rest with
    | nil => rfl
    | cons c t => simp [takeDigits, hrest c t rfl]
  | cons d ds' ih =>
    have hd : isDigitChar d = true := hds d (List.mem_cons_self _ _)
    simp only [List.cons_append, takeDigits, hd, if_pos]
    rw [show ds'.append rest = ds' ++ rest from rfl,
      ih fun c hc => hds c (List.mem_cons_of_mem d hc)]

theorem scanFrac_not_dot (c : Char) (t : Str) (h : c ≠ '.') :
    scanFrac (c :: t) = ([], c :: t) := by
  rw [scanFrac.eq_def]
  split
  · rename_i heq
    injection heq with h1 _
    exact (h h1).elim
  · rfl

theorem scanExp_not_e (c : Char) (t : Str) (he : c ≠ 'e') (hE : c ≠ 'E') :
    scanExp (c :: t) = ([], c :: t) := by
  have hcond : (c = 'e' ∨ c = 'E') = False := by
    simp [he, hE]
  rw [scanExp.eq_def]
  split
  · rename_i heq
    injection heq with h1 h2
    subst h1
    rw [if_neg (show ¬(c = 'e' ∨ c = 'E') by simp [he, hE]), h2]
  · rename_i heq
    injection heq with h1 h2
    subst h1
    rw [if_neg (show ¬(c = 'e' ∨ c = 'E') by simp [he, hE]), h2]
  · rename_i heq
    injection heq with h1 h2
    subst h1
    rw [if_neg (show ¬(c = 'e' ∨ c = 'E') by simp [he, hE]), h2]
  · rename_i heq
    exact absurd heq (by simp)

theorem foll_head_not_digit (rest : Str) (hf : Foll rest) :
    ∀ c t, rest = c :: t → isDigitChar c = false := by
  intro c u heq
  rcases hf with rfl | ⟨t, rfl⟩ | ⟨t, rfl⟩ | ⟨t, rfl⟩
  · cases heq
  · injection heq with h1 _
    subst h1
    decide
  · injection heq with h1 _
    subst h1
    decide
  · injection heq with h1 _
    subst h1
    decide

theorem finishNumber_foll (neg : Bool) (ip : Str) (rest : Str) (hf : Foll rest) :
    finishNumber neg ip rest =
      (Json.num (if neg then -(digitsToNat ip : Int) else (digitsToNat ip : Int)), rest) := by
  rcases hf with rfl | ⟨t, rfl⟩ | ⟨t, rfl⟩ | ⟨t, rfl⟩
  · rfl
  · simp [finishNumber, scanFrac_not_dot ',' t (by decide),
      scanExp_not_e ',' t (by decide) (by decide)]
  · simp [finishNumber, scanFrac_not_dot ']' t (by decide),
      scanExp_not_e ']' t (by decide) (by decide)]
  · simp [finishNumber, scanFrac_not_dot '}' t (by decide),
      scanExp_not_e '}' t (by decide) (by decide)]

theorem scanNumBody_print (neg : Bool) (n : Nat) (rest : Str) (hf : Foll rest) :
    scanNumBody neg (natToChars n ++ rest) =
      some (Json.num (if neg then -(n : Int) else (n : Int)), rest) := by
  by_cases h0 : n = 0
  · subst h0
    rw [show natToChars 0 = ['0'] from rfl]
    show scanNumBody neg ('0' :: rest) = _
    rw [show scanNumBody neg ('0' :: rest) = some (finishNumber neg ['0'] rest) from rfl]
    rw [finishNumber_foll neg ['0'] rest hf]
    rfl
  · obtain ⟨d, ds, hds, hdig, hne0, hdsdig⟩ := natToChars_struct n (by omega)
    rw [hds, List.cons_append]
    show scanNumBody neg (d :: (ds ++ rest)) = _
    rw [show scanNumBody neg (d :: (ds ++ rest)) =
      if d = '0' then some (finishNumber neg ['0'] (ds ++ rest))
      else if isDigitChar d = true then
        some (finishNumber neg (d :: (takeDigits (ds ++ rest)).1) (takeDigits (ds ++ rest)).2)
      else none from rfl]
    rw [if_neg hne0, if_pos hdig,
      takeDigits_run ds rest hdsdig (foll_head_not_digit rest hf)]
    rw [finishNumber_foll neg (d :: ds) rest hf]
    rw [show (d :: ds : Str) = natToChars n from hds.symm, digitsToNat_natToChars]

theorem scanNumber_not_dash (c : Char) (t : Str) (h : c ≠ '-') :
    scanNumber (c :: t) = scanNumBody false (c :: t) := by
  rw [scanNumber.eq_def]
  split
  · rename_i heq
    injection heq with h1 _
    exact (h h1).elim
  · rfl

theorem digit_ne_dash (d : Char) (h : isDigitChar d = true) : d ≠ '-' :=
  fun e => absurd (e ▸ h) (by decide)

/-- The serializer's rendering of a Python int re-scans to the same int. -/
theorem scanNumber_print (i : Int) (rest : Str) (hf : Foll rest) :
    scanNumber (intToChars i ++ rest) = some (Json.num i, rest) := by
  by_cases hneg : i < 0
  · rw [show intToChars i = '-' :: natToChars i.natAbs by rw [intToChars, if_pos hneg]]
    rw [List.cons_append]
    rw [show scanNumber ('-' :: (natToChars i.natAbs ++ rest)) =
      scanNumBody true (natToChars i.natAbs ++ rest) from rfl]
    rw [scanNumBody_print true i.natAbs rest hf, if_pos rfl]
    have hv : -(i.natAbs : Int) = i := by omega
    rw [hv]
  · rw [show intToChars i = natToChars i.natAbs by rw [intToChars, if_neg hneg]]
    have hd : ∃ d ds, natToChars i.natAbs = d :: ds ∧ isDigitChar d = true := by
      by_cases h0 : i.natAbs = 0
      · exact ⟨'0', [], by rw [h0]; rfl, by decide⟩
      · obtain ⟨d, ds, hds, hdig, _, _⟩ := natToChars_struct i.natAbs (by omega)
        exact ⟨d, ds, hds, hdig⟩
    obtain ⟨d, ds, hds, hdig⟩ := hd
    rw [hds, List.cons_append, scanNumber_not_dash d _ (digit_ne_dash d hdig),
      ← List.cons_append, ← hds, scanNumBody_print false i.natAbs rest hf,
      if_neg (by simp)]
    have hv : (i.natAbs : Int) = i := by omega
    rw [hv]

theorem scanOnce_digitChar (f : Nat) (k : Nat) (hk : k < 10) (s : Str) :
    scanOnce (f + 1) (digitChar k :: s) = scanNumber (digitChar k :: s) := by
  interval_cases k <;> rfl

theorem scanOnce_dash_digitChar (f : Nat) (k : Nat) (hk : k < 10) (s : Str) :
    scanOnce (f + 1) ('-' :: digitChar k :: s) = scanNumber ('-' :: digitChar k :: s) := by
  interval_cases k <;> rfl

theorem natToCharsAux_structK (fuel : Nat) :
    ∀ (n : Nat), 0 < n → n ≤ fuel →
      ∃ k ds, natToCharsAux fuel n [] = digitChar k :: ds ∧ 0 < k ∧ k < 10 := by
  induction fuel with
  | zero => intro n h0 hle; omega
  | succ f ih =>
    intro n h0 hle
    obtain ⟨m, rfl⟩ : ∃ m, n = m + 1 := ⟨n - 1, by omega⟩
    rw [show natToCharsAux (f + 1) (m + 1) [] =
      natToCharsAux f ((m + 1) / 10) [digitChar ((m + 1) % 10)] from rfl]
    by_cases hq : (m + 1) / 10 = 0
    · rw [hq, natToCharsAux_zero]
      have hm : m + 1 < 10 := by omega
      exact ⟨(m + 1) % 10, [], rfl, by omega, Nat.mod_lt _ (by omega)⟩
    · rw [natToCharsAux_append]
      obtain ⟨k, ds, hds, hk0, hk10⟩ := ih ((m + 1) / 10) (by omega)
        (by
          have := Nat.div_lt_self (show 0 < m + 1 by omega) (show 1 < 10 by omega)
          omega)
      exact ⟨k, ds ++ [digitChar ((m + 1) % 10)], by rw [hds]; simp, hk0, hk10⟩

theorem natToChars_structK (n : Nat) :
    ∃ k ds, natToChars n = digitChar k :: ds ∧ k < 10 := by
  by_cases h : n = 0
  · subst h
    exact ⟨0, [], rfl, by omega⟩
  · obtain ⟨k, ds, hds, _, hk10⟩ := natToCharsAux_structK n n (by omega) le_rfl
    exact ⟨k, ds, by rw [natToChars, if_neg h]; exact hds, hk10⟩

theorem digit_ne_capI (d : Char) (h : isDigitChar d = true) : d ≠ 'I' :=
  fun e => absurd (e ▸ h) (by decide)

/-- The first character of a serialized (float-free) value: never json
whitespace and never a closing bracket. -/
theorem dumps_head (v : Json) (hv : noFloat v = true) :
    ∃ c t, dumps v = c :: t ∧ isWsChar c = false ∧ c ≠ ']' := by
  cases v with
  | null => exact ⟨'n', _, rfl, by decide, by decide⟩
  | bool b =>
    cases b with
    | false => exact ⟨'f', _, rfl, by decide, by decide⟩
    | true => exact ⟨'t', _, rfl, by decide, by decide⟩
  | num i =>
    by_cases hneg : i < 0
    · refine ⟨'-', natToChars i.natAbs, ?_, by decide, by decide⟩
      show intToChars i = _
      rw [intToChars, if_pos hneg]
    · by_cases h0 : i.natAbs = 0
      · refine ⟨'0', [], ?_, by decide, by decide⟩
        show intToChars i = _
        rw [intToChars, if_neg hneg, h0]
        rfl
      · obtain ⟨d, ds, hds, hdig, _, _⟩ := natToChars_struct i.natAbs (by omega)
        refine ⟨d, ds, ?_, digit_not_ws d hdig, fun e => absurd (e ▸ hdig) (by decide)⟩
        show intToChars i = _
        rw [intToChars, if_neg hneg, hds]
  | fnum lex => exact absurd hv (by simp [noFloat])
  | nan => exact ⟨'N', _, rfl, by decide, by decide⟩
  | inf neg =>
    cases neg with
    | false => exact ⟨'I', _, rfl, by decide, by decide⟩
    | true => exact ⟨'-', _, rfl, by decide, by decide⟩
  | str s => exact ⟨'"', _, rfl, by decide, by decide⟩
  | arr xs => exact ⟨'[', _, rfl, by decide, by decide⟩
  | obj kvs => exact ⟨'{', _, rfl, by decide, by decide⟩

theorem skipWs_dumps (v : Json) (hv : noFloat v = true) (r : Str) :
    skipWs (dumps v ++ r) = dumps v ++ r := by
  obtain ⟨c, t, he, hws, _⟩ := dumps_head v hv
  rw [he, List.cons_append, skipWs_not_ws c _ hws]

theorem scanOnce_num (f : Nat) (i : Int) (rest : Str) (hrest : Foll rest) :
    scanOnce (f + 1) (intToChars i ++ rest) = some (Json.num i, rest) := by
  by_cases hneg : i < 0
  · have hi : intToChars i = '-' :: natToChars i.natAbs := by
      rw [intToChars, if_pos hneg]
    obtain ⟨k, ds, hds, hk⟩ := natToChars_structK i.natAbs
    rw [hi, hds, List.cons_append, List.cons_append, scanOnce_dash_digitChar f k hk,
      ← List.cons_append, ← List.cons_append, ← hds, ← hi]
    exact scanNumber_print i rest hrest
  · have hi : intToChars i = natToChars i.natAbs := by
      rw [intToChars, if_neg hneg]
    obtain ⟨k, ds, hds, hk⟩ := natToChars_structK i.natAbs
    rw [hi, hds, List.cons_append, scanOnce_digitChar f k hk,
      ← List.cons_append, ← hds, ← hi]
    exact scanNumber_print i rest hrest

theorem dumpsMembers_shape (kv : Str × Json) (t : List (Str × Json)) :
    dumpsMembers (kv :: t) = '"' :: membersBody (kv :: t) := by
  obtain ⟨k, v⟩ := kv
  cases t <;> simp [dumpsMembers, membersBody, dumpStr]

theorem dumpsElems_shape (x : Json) (hx : noFloat x = true) (t : List Json) (r : Str) :
    ∃ c w, dumpsElems (x :: t) ++ r = c :: w ∧ isWsChar c = false ∧ c ≠ ']' := by
  obtain ⟨c, t0, hcx, hws, hnb⟩ := dumps_head x hx
  cases t with
  | nil =>
    exact ⟨c, t0 ++ r, by rw [show dumpsElems [x] = dumps x from rfl, hcx]; simp, hws, hnb⟩
  | cons y t2 =>
    refine ⟨c, t0 ++ ',' :: ' ' :: dumpsElems (y :: t2) ++ r, ?_, hws, hnb⟩
    rw [show dumpsElems (x :: y :: t2) = dumps x ++ ',' :: ' ' :: dumpsElems (y :: t2) from rfl,
      hcx]
    simp

theorem scanElems_step_single (g : Nat) (x : Json) (rest : Str)
    (hx : scanOnce g (dumps x ++ ']' :: rest) = some (x, ']' :: rest)) :
    scanElems (g + 1) (dumps x ++ ']' :: rest) = some ([x], rest) := by
  show (match scanOnce g (dumps x ++ ']' :: rest) with
    | none => none
    | some (v, s1) =>
      match skipWs s1 with
      | ']' :: t => some ([v], t)
      | ',' :: t => (scanElems g (skipWs t)).map fun r => (v :: r.1, r.2)
      | _ => none) = some ([x], rest)
  rw [hx]
  rfl

theorem scanElems_step_cons (g : Nat) (x y : Json) (t2 : List Json) (rest : Str)
    (hx : scanOnce g (dumps x ++ ',' :: ' ' :: (dumpsElems (y :: t2) ++ ']' :: rest)) =
      some (x, ',' :: ' ' :: (dumpsElems (y :: t2) ++ ']' :: rest)))
    (hrec : scanElems g (skipWs (dumpsElems (y :: t2) ++ ']' :: rest)) =
      some (y :: t2, rest)) :
    scanElems (g + 1) (dumps x ++ ',' :: ' ' :: (dumpsElems (y :: t2) ++ ']' :: rest)) =
      some (x :: y :: t2, rest) := by
  show (match scanOnce g (dumps x ++ ',' :: ' ' :: (dumpsElems (y :: t2) ++ ']' :: rest)) with
    | none => none
    | some (v, s1) =>
      match skipWs s1 with
      | ']' :: t => some ([v], t)
      | ',' :: t => (scanElems g (skipWs t)).map fun r => (v :: r.1, r.2)
      | _ => none) = some (x :: y :: t2, rest)
  rw [hx]
  show (scanElems g (skipWs (dumpsElems (y :: t2) ++ ']' :: rest))).map
    (fun r => (x :: r.1, r.2)) = some (x :: y :: t2, rest)
  rw [hrec]
  rfl

theorem scanMembers_step_single (g : Nat) (k : Str) (v : Json) (rest : Str)
    (hv : scanOnce g (skipWs (dumps v ++ '}' :: rest)) = some (v, '}' :: rest)) :
    scanMembers (g + 1) (escString k ++ '"' :: ':' :: ' ' :: (dumps v ++ '}' :: rest)) =
      some ([(k, v)], rest) := by
  show (match scanString (escString k ++ '"' :: (':' :: ' ' :: (dumps v ++ '}' :: rest))) with
    | none => none
    | some (key, s1) =>
      match skipWs s1 with
      | ':' :: t =>
        match scanOnce g (skipWs t) with
        | none => none
        | some (v2, s3) =>
          match skipWs s3 with
          | ',' :: u =>
            match skipWs u with
            | '"' :: u2 => (scanMembers g u2).map fun r => ((key, v2) :: r.1, r.2)
            | _ => none
          | '}' :: u => some ([(key, v2)], u)
          | _ => none
      | _ => none) = some ([(k, v)], rest)
  rw [scanString_print k (':' :: ' ' :: (dumps v ++ '}' :: rest))]
  show (match scanOnce g (skipWs (dumps v ++ '}' :: rest)) with
    | none => none
    | some (v2, s3) =>
      match skipWs s3 with
      | ',' :: u =>
        match skipWs u with
        | '"' :: u2 => (scanMembers g u2).map fun r => ((k, v2) :: r.1, r.2)
        | _ => none
      | '}' :: u => some ([(k, v2)], u)
      | _ => none) = some ([(k, v)], rest)
  rw [hv]
  rfl

theorem scanMembers_step_cons (g : Nat) (k : Str) (v : Json) (m : Str × Json)
    (t2 : List (Str × Json)) (rest : Str)
    (hv : scanOnce g
        (skipWs (dumps v ++ ',' :: ' ' :: (dumpsMembers (m :: t2) ++ '}' :: rest))) =
      some (v, ',' :: ' ' :: (dumpsMembers (m :: t2) ++ '}' :: rest)))
    (hrec : scanMembers g (membersBody (m :: t2) ++ '}' :: rest) = some (m :: t2, rest)) :
    scanMembers (g + 1)
      (escString k ++ '"' :: ':' :: ' '
        :: (dumps v ++ ',' :: ' ' :: (dumpsMembers (m :: t2) ++ '}' :: rest))) =
      some ((k, v) :: m :: t2, rest) := by
  show (match scanString (escString k ++ '"' :: (':' :: ' '
      :: (dumps v ++ ',' :: ' ' :: (dumpsMembers (m :: t2) ++ '}' :: rest)))) with
    | none => none
    | some (key, s1) =>
      match skipWs s1 with
      | ':' :: t =>
        match scanOnce g (skipWs t) with
        | none => none
        | some (v2, s3) =>
          match skipWs s3 with
          | ',' :: u =>
            match skipWs u with
            | '"' :: u2 => (scanMembers g u2).map fun r => ((key, v2) :: r.1, r.2)
            | _ => none
          | '}' :: u => some ([(key, v2)], u)
          | _ => none
      | _ => none) = some ((k, v) :: m :: t2, rest)
  rw [scanString_print k (':' :: ' '
    :: (dumps v ++ ',' :: ' ' :: (dumpsMembers (m :: t2) ++ '}' :: rest)))]
  show (match scanOnce g
      (skipWs (dumps v ++ ',' :: ' ' :: (dumpsMembers (m :: t2) ++ '}' :: rest))) with
    | none => none
    | some (v2, s3) =>
      match skipWs s3 with
      | ',' :: u =>
        match skipWs u with
        | '"' :: u2 => (scanMembers g u2).map fun r => ((k, v2) :: r.1, r.2)
        | _ => none
      | '}' :: u => some ([(k, v2)], u)
      | _ => none) = some ((k, v) :: m :: t2, rest)
  rw [hv]
  show (match skipWs (dumpsMembers (m :: t2) ++ '}' :: rest) with
    | '"' :: u2 => (scanMembers g u2).map fun r => ((k, v) :: r.1, r.2)
    | _ => none) = some ((k, v) :: m :: t2, rest)
  rw [dumpsMembers_shape m t2]
  show (scanMembers g (membersBody (m :: t2) ++ '}' :: rest)).map
    (fun r => ((k, v) :: r.1, r.2)) = some ((k, v) :: m :: t2, rest)
  rw [hrec]
  rfl

/-- The serializer/scanner round trip, proved simultaneously for values,
array element lists and object member lists by strong induction on size. -/
theorem dumps_scan_roundtrip (N : Nat) :
    (∀ v : Json, sizeOf v ≤ N → noFloat v = true →
      ∀ (fuel : Nat) (rest : Str), (dumps v).length + 1 ≤ fuel → Foll rest →
        scanOnce fuel (dumps v ++ rest) = some (v, rest)) ∧
    (∀ xs : List Json, sizeOf xs ≤ N → xs ≠ [] → noFloatList xs = true →
      ∀ (fuel : Nat) (rest : Str), (dumpsElems xs).length + 2 ≤ fuel →
        scanElems fuel (dumpsElems xs ++ ']' :: rest) = some (xs, rest)) ∧
    (∀ kvs : List (Str × Json), sizeOf kvs ≤ N → kvs ≠ [] → noFloatMembers kvs = true →
      ∀ (fuel : Nat) (rest : Str), (dumpsMembers kvs).length + 1 ≤ fuel →
        scanMembers fuel (membersBody kvs ++ '}' :: rest) = some (kvs, rest)) := by
  induction N using Nat.strong_induction_on with
  | _ N IH =>
  refine ⟨?_, ?_, ?_⟩
  · intro v hsz hnf fuel rest hfuel hrest
    obtain ⟨f, rfl⟩ : ∃ f, fuel = f + 1 := ⟨fuel - 1, by omega⟩
    cases v with
    | null => rfl
    | bool b => cases b <;> rfl
    | num i => exact scanOnce_num f i rest hrest
    | fnum lex => exact absurd hnf (by simp [noFloat])
    | nan => rfl
    | inf neg => cases neg <;> rfl
    | str s =>
      have hshape : dumps (Json.str s) ++ rest = '"' :: (escString s ++ '"' :: rest) := by
        show dumpStr s ++ rest = _
        simp [dumpStr]
      rw [hshape]
      show (scanString (escString s ++ '"' :: rest)).map (fun r => (Json.str r.1, r.2)) = _
      rw [scanString_print]
      rfl
    | arr xs =>
      cases xs with
      | nil => rfl
      | cons x xs2 =>
        have hnfl : noFloatList (x :: xs2) = true := by
          simpa [noFloat] using hnf
        have hnfx : noFloat x = true := by
          simp only [noFloatList, Bool.and_eq_true] at hnfl
          exact hnfl.1
        have hshape : dumps (Json.arr (x :: xs2)) ++ rest =
            '[' :: (dumpsElems (x :: xs2) ++ ']' :: rest) := by
          show ('[' :: dumpsElems (x :: xs2)) ++ [']'] ++ rest = _
          simp
        rw [hshape]
        have e0 : scanOnce (f + 1) ('[' :: (dumpsElems (x :: xs2) ++ ']' :: rest)) =
            match skipWs (dumpsElems (x :: xs2) ++ ']' :: rest) with
            | [] => (scanElems f []).map fun r => (Json.arr r.1, r.2)
            | c2 :: t2 =>
              if c2 = ']' then some (Json.arr [], t2)
              else (scanElems f (c2 :: t2)).map fun r => (Json.arr r.1, r.2) := rfl
        rw [e0]
        obtain ⟨c, w, hcw, hws, hnb⟩ := dumpsElems_shape x hnfx xs2 (']' :: rest)
        rw [hcw, skipWs_not_ws c w hws]
        show (if c = ']' then some (Json.arr [], w)
          else (scanElems f (c :: w)).map fun r => (Json.arr r.1, r.2)) = _
        rw [if_neg hnb, ← hcw]
        have hszl : sizeOf (Json.arr (x :: xs2)) = 1 + sizeOf (x :: xs2) := by simp
        have hlen : (dumps (Json.arr (x :: xs2))).length =
            (dumpsElems (x :: xs2)).length + 2 := by
          show (('[' :: dumpsElems (x :: xs2)) ++ [']']).length = _
          simp
        have h2 := (IH (N - 1) (by omega)).2.1 (x :: xs2) (by omega) (by simp) hnfl f rest
          (by omega)
        rw [h2]
        rfl
    | obj kvs =>
      cases kvs with
      | nil => rfl
      | cons kv t =>
        have hnfm : noFloatMembers (kv :: t) = true := by
          simpa [noFloat] using hnf
        have hshape : dumps (Json.obj (kv :: t)) ++ rest =
            '{' :: (dumpsMembers (kv :: t) ++ '}' :: rest) := by
          show ('{' :: dumpsMembers (kv :: t)) ++ ['}'] ++ rest = _
          simp
        rw [hshape]
        have e0 : scanOnce (f + 1) ('{' :: (dumpsMembers (kv :: t) ++ '}' :: rest)) =
            match skipWs (dumpsMembers (kv :: t) ++ '}' :: rest) with
            | [] => none
            | c2 :: t2 =>
              if c2 = '}' then some (Json.obj [], t2)
              else if c2 = '"' then (scanMembers f t2).map fun r => (Json.obj r.1, r.2)
              else none := rfl
        rw [e0, dumpsMembers_shape kv t]
        show (scanMembers f (membersBody (kv :: t) ++ '}' :: rest)).map
          (fun r => (Json.obj r.1, r.2)) = _
        have hszl : sizeOf (Json.obj (kv :: t)) = 1 + sizeOf (kv :: t) := by simp
        have hlen : (dumps (Json.obj (kv :: t))).length =
            (dumpsMembers (kv :: t)).length + 2 := by
          show (('{' :: dumpsMembers (kv :: t)) ++ ['}']).length = _
          simp
        have h3 := (IH (N - 1) (by omega)).2.2 (kv :: t) (by omega) (by simp) hnfm f rest
          (by omega)
        rw [h3]
        rfl
  · intro xs hsz hne hnfl fuel rest hfuel
    obtain ⟨g, rfl⟩ : ∃ g, fuel = g + 1 := ⟨fuel - 1, by omega⟩
    cases xs with
    | nil => exact absurd rfl hne
    | cons x t =>
      have hx' : noFloat x = true ∧ noFloatList t = true := by
        simpa [noFloatList, Bool.and_eq_true] using hnfl
      cases t with
      | nil =>
        show scanElems (g + 1) (dumps x ++ ']' :: rest) = some ([x], rest)
        have hszx : sizeOf ([x] : List Json) = 1 + sizeOf x + 1 := rfl
        apply scanElems_step_single
        exact (IH (N - 1) (by omega)).1 x (by omega) hx'.1 g (']' :: rest)
          (by
            have : (dumpsElems [x]).length = (dumps x).length := rfl
            omega)
          (Or.inr (Or.inr (Or.inl ⟨rest, rfl⟩)))
      | cons y t2 =>
        have hy' : noFloat y = true ∧ noFloatList t2 = true := by
          simpa [noFloatList, Bool.and_eq_true] using hx'.2
        have hshape : dumpsElems (x :: y :: t2) ++ ']' :: rest =
            dumps x ++ ',' :: ' ' :: (dumpsElems (y :: t2) ++ ']' :: rest) := by
          show (dumps x ++ ',' :: ' ' :: dumpsElems (y :: t2)) ++ ']' :: rest = _
          simp
        rw [hshape]
        have hszx : sizeOf (x :: y :: t2 : List Json) =
            1 + sizeOf x + (1 + sizeOf y + sizeOf t2) := rfl
        have hszy : sizeOf (y :: t2 : List Json) = 1 + sizeOf y + sizeOf t2 := rfl
        have hlen : (dumpsElems (x :: y :: t2)).length =
            (dumps x).length + 2 + (dumpsElems (y :: t2)).length := by
          show ((dumps x ++ ',' :: ' ' :: dumpsElems (y :: t2)).length) = _
          simp
          omega
        apply scanElems_step_cons
        · exact (IH (N - 1) (by omega)).1 x (by omega) hx'.1 g
            (',' :: ' ' :: (dumpsElems (y :: t2) ++ ']' :: rest))
            (by omega) (Or.inr (Or.inl ⟨_, rfl⟩))
        · obtain ⟨c, w, hcw, hws, _⟩ := dumpsElems_shape y hy'.1 t2 (']' :: rest)
          rw [hcw, skipWs_not_ws c w hws, ← hcw]
          exact (IH (N - 1) (by omega)).2.1 (y :: t2) (by omega) (by simp) hx'.2 g rest
            (by omega)
  · intro kvs hsz hne hnfm fuel rest hfuel
    obtain ⟨g, rfl⟩ : ∃ g, fuel = g + 1 := ⟨fuel - 1, by omega⟩
    cases kvs with
    | nil => exact absurd rfl hne
    | cons kv t =>
      obtain ⟨k, v⟩ := kv
      have hv' : noFloat v = true ∧ noFloatMembers t = true := by
        simpa [noFloatMembers, Bool.and_eq_true] using hnfm
      cases t with
      | nil =>
        have hshape : membersBody [(k, v)] ++ '}' :: rest =
            escString k ++ '"' :: ':' :: ' ' :: (dumps v ++ '}' :: rest) := by
          show (escString k ++ '"' :: ':' :: ' ' :: dumps v) ++ '}' :: rest = _
          simp
        rw [hshape]
        have hszv : sizeOf ([(k, v)] : List (Str × Json)) =
            1 + (1 + sizeOf k + sizeOf v) + 1 := rfl
        have hlen : (dumpsMembers [(k, v)]).length =
            (escString k).length + 4 + (dumps v).length := by
          show ((dumpStr k ++ ':' :: ' ' :: dumps v).length) = _
          simp [dumpStr]
          omega
        apply scanMembers_step_single
        rw [skipWs_dumps v hv'.1]
        exact (IH (N - 1) (by omega)).1 v (by omega) hv'.1 g ('}' :: rest)
          (by omega) (Or.inr (Or.inr (Or.inr ⟨rest, rfl⟩)))
      | cons m t2 =>
        have hshape : membersBody ((k, v) :: m :: t2) ++ '}' :: rest =
            escString k ++ '"' :: ':' :: ' '
              :: (dumps v ++ ',' :: ' ' :: (dumpsMembers (m :: t2) ++ '}' :: rest)) := by
          show ((escString k ++ '"' :: ':' :: ' ' :: dumps v)
            ++ ',' :: ' ' :: dumpsMembers (m :: t2)) ++ '}' :: rest = _
          simp
        rw [hshape]
        have hszv : sizeOf ((k, v) :: m :: t2 : List (Str × Json)) =
            1 + (1 + sizeOf k + sizeOf v) + (1 + sizeOf m + sizeOf t2) := rfl
        have hszm : sizeOf (m :: t2 : List (Str × Json)) =
            1 + sizeOf m + sizeOf t2 := rfl
        have hlen : (dumpsMembers ((k, v) :: m :: t2)).length =
            (escString k).length + 4 + (dumps v).length + 2
              + (dumpsMembers (m :: t2)).length := by
          show ((dumpStr k ++ ':' :: ' ' :: dumps v
            ++ ',' :: ' ' :: dumpsMembers (m :: t2)).length) = _
          simp [dumpStr]
          omega
        apply scanMembers_step_cons
        · rw [skipWs_dumps v hv'.1]
          exact (IH (N - 1) (by omega)).1 v (by omega) hv'.1 g
            (',' :: ' ' :: (dumpsMembers (m :: t2) ++ '}' :: rest))
            (by omega) (Or.inr (Or.inl ⟨_, rfl⟩))
        · exact (IH (N - 1) (by omega)).2.2 (m :: t2) (by omega) (by simp) hv'.2 g rest
            (by omega)

/-- With ensure_ascii=False, a character at or above U+0080 is emitted
verbatim by the escaper, never escaped. -/
theorem escChar_high (c : Char) (hc : 128 ≤ c.toNat) : escChar c = [c] := by
  have hne : ∀ d : Char, d.toNat < 128 → c ≠ d := by
    intro d hd h
    rw [h] at hc
    omega
  unfold escChar
  rw [if_neg (hne '"' (by decide)), if_neg (hne '\\' (by decide)),
    if_neg (hne '\n' (by decide)), if_neg (hne '\r' (by decide)),
    if_neg (hne '\t' (by decide)), if_neg (by omega), if_neg (by omega),
    if_neg (by omega)]

/-- Every non-ASCII character of a serialized string survives literally in
the escaped output. -/
theorem escString_mem_high (s : Str) (c : Char) (hm : c ∈ s) (hc : 128 ≤ c.toNat) :
    c ∈ escString s := by
  induction s with
  | nil => cases hm
  | cons a t ih =>
    rw [escString_cons]
    rcases List.mem_cons.mp hm with h | h
    · subst h
      rw [escChar_high c hc]
      exact List.mem_append_left _ (by simp)
    · exact List.mem_append_right _ (ih h)

/-- C2: for every Information record whose values are exact (no float
lexemes), json.loads of Information.encode recovers exactly the record's
field mapping — the parsed object is the data dict itself, all five named
fields and every kwargs entry included, none lost; moreover the
ensure_ascii=False serializer emits every non-ASCII character literally
(escChar leaves it verbatim, so it survives in the escaped string body)
rather than escaping it. -/
theorem information_roundtrip (r : Information)
    (h : noFloat (Json.obj r.data) = true) :
    loads r.encode = some (Json.obj r.data) ∧
    (∀ c : Char, 128 ≤ c.toNat → escChar c = [c]) ∧
    (∀ (s : Str) (c : Char), c ∈ s → 128 ≤ c.toNat → c ∈ escString s) := by
  refine ⟨?_, fun c hc => escChar_high c hc, fun s c hm hc => escString_mem_high s c hm hc⟩
  have h1 := (dumps_scan_roundtrip (sizeOf (Json.obj r.data))).1 (Json.obj r.data)
    le_rfl h ((dumps (Json.obj r.data)).length + 1) [] le_rfl (Or.inl rfl)
  rw [List.append_nil] at h1
  have hsw : skipWs (dumps (Json.obj r.data)) = dumps (Json.obj r.data) := by
    have h2 := skipWs_dumps (Json.obj r.data) h []
    rwa [List.append_nil] at h2
  show loads (dumps (Json.obj r.data)) = _
  unfold loads
  rw [hsw, h1]
  rfl

/-- The round trip evaluated on a concrete record holding non-ASCII text. -/
theorem information_roundtrip_witness :
    noFloat (Json.obj (Information.data
      ⟨['g', 'h'], ['i', 'd', '1'], ['2', '0', '2', '3'], ['u'],
        Json.str ['é', '汉'], [(['k'], Json.num 3)]⟩)) = true ∧
    loads (Information.encode
      ⟨['g', 'h'], ['i', 'd', '1'], ['2', '0', '2', '3'], ['u'],
        Json.str ['é', '汉'], [(['k'], Json.num 3)]⟩) =
      some (Json.obj (Information.data
        ⟨['g', 'h'], ['i', 'd', '1'], ['2', '0', '2', '3'], ['u'],
          Json.str ['é', '汉'], [(['k'], Json.num 3)]⟩)) :=
  ⟨by decide, (information_roundtrip
    ⟨['g', 'h'], ['i', 'd', '1'], ['2', '0', '2', '3'], ['u'],
      Json.str ['é', '汉'], [(['k'], Json.num 3)]⟩ (by decide)).1⟩
